import Mathlib

/-!
Verification of the CSC111 checkers repository (final_game.py,
final_trees_and_bots.py).  The Python source is shallowly embedded:
pure data is translated to Lean structures, the mutating methods become
functions from the old game value to the new one, and the recursive
capture probing (which in Python terminates because each recursive level
deletes one jumped piece from a scratch copy of the board) is given an
explicit fuel argument that strictly bounds the recursion depth; the
top-level entry points supply a fuel larger than the number of board
cells, so the fuel can never run out on a reachable call chain.
-/

namespace Checkers

/-- Piece from final_game.py: `is_white`, `is_king`; `__init__` sets
`is_king = False`. -/
structure Piece where
  is_white : Bool
  is_king : Bool
deriving DecidableEq, Repr

/-- `Piece(is_white)` constructor: `is_king` starts false. -/
def mkPiece (is_white : Bool) : Piece := ⟨is_white, false⟩

/-- A move (class `Move`): the digit string is modelled as the list of its
characters, `piece_captured` as in the source. -/
structure Move where
  move : List Char
  piece_captured : Bool
deriving DecidableEq, Repr

/-- The 8x8 board: cell `(row, col)` holds `Option Piece`.  Python stores a
list of 8 lists of length 8; every access in the source is guarded to the
range 0..7. -/
def Board := Fin 8 → Fin 8 → Option Piece

instance : DecidableEq Board := by unfold Board; infer_instance

/-- Read `board[i][j]` (all reads in the source are in bounds; out of
bounds reads answer `none`, a case that is dead code under the source's
guards). -/
def boardAt (b : Board) (i j : Nat) : Option Piece :=
  if h : i < 8 ∧ j < 8 then b ⟨i, h.1⟩ ⟨j, h.2⟩ else none

/-- Write `board[i][j] = v` (writes in the source are always in bounds). -/
def boardSet (b : Board) (i j : Nat) (v : Option Piece) : Board :=
  fun i' j' => if i'.val = i ∧ j'.val = j then v else b i' j'

/-- Build a board from a list of rows, as the Python source writes it. -/
def boardOfList (l : List (List (Option Piece))) : Board :=
  fun i j => ((l.getD i.val []).getD j.val none)

/-- `DEFAULT_BOARD_SETUP` from final_game.py. -/
def DEFAULT_BOARD_SETUP : Board := boardOfList
  [[some (mkPiece true), none, some (mkPiece true), none, some (mkPiece true), none, some (mkPiece true), none],
   [none, some (mkPiece true), none, some (mkPiece true), none, some (mkPiece true), none, some (mkPiece true)],
   [some (mkPiece true), none, some (mkPiece true), none, some (mkPiece true), none, some (mkPiece true), none],
   [none, none, none, none, none, none, none, none],
   [none, none, none, none, none, none, none, none],
   [none, some (mkPiece false), none, some (mkPiece false), none, some (mkPiece false), none, some (mkPiece false)],
   [some (mkPiece false), none, some (mkPiece false), none, some (mkPiece false), none, some (mkPiece false), none],
   [none, some (mkPiece false), none, some (mkPiece false), none, some (mkPiece false), none, some (mkPiece false)]]

/-- Class `CheckersGame`: all instance attributes of the source. -/
structure CheckersGame where
  board : Board
  is_white_move : Bool
  gamestate : String
  white_win : Bool
  player_turn : Bool
  moves_since_cap : Int
  is_draw : Bool
  main_game : Bool

/-- `CheckersGame.__init__` (value semantics; the aliasing of the default
board object is modelled separately for the reference-sharing claim). -/
def newCheckersGame (is_white_move : Bool := true) (board : Option Board := none)
    (gamestate : String := "MENU") : CheckersGame :=
  { board := match board with
      | none => DEFAULT_BOARD_SETUP
      | some b => b
    is_white_move := is_white_move
    gamestate := gamestate
    white_win := true
    player_turn := true
    moves_since_cap := 0
    is_draw := false
    main_game := true }

/-- `CheckersGame.return_all_pieces_location`: scan rows 0..7, cols 0..7,
with the colour filter exactly as in the source's if/elif chain. -/
def CheckersGame.return_all_pieces_location (g : CheckersGame)
    (colour : String := "any") : List ((Nat × Nat) × Piece) :=
  (List.range 8).foldl (fun acc row =>
    (List.range 8).foldl (fun acc2 col =>
      match boardAt g.board row col with
      | none => acc2
      | some p =>
          if colour = "any" then acc2 ++ [((row, col), p)]
          else if colour = "white" ∧ p.is_white then acc2 ++ [((row, col), p)]
          else if colour = "black" ∧ ¬p.is_white then acc2 ++ [((row, col), p)]
          else acc2) acc) []

/-- `CheckersGame.make_copy_game`: a deep copy (value copy here) with
`moves_since_cap = 0` and `main_game = False`; the copy is built through
`CheckersGame(deepcopy(is_white_move), deepcopy(board))`, so the other
fields take their `__init__` defaults. -/
def CheckersGame.make_copy_game (g : CheckersGame) : CheckersGame :=
  { board := g.board
    is_white_move := g.is_white_move
    gamestate := "MENU"
    white_win := true
    player_turn := true
    moves_since_cap := 0
    is_draw := false
    main_game := false }

/-- `str(n)` on the one-digit board coordinates, as a character list. -/
def strNat (n : Nat) : List Char := (Nat.repr n).toList

/-- `int(c)` on a digit character. -/
def pyDigit (c : Char) : Nat := c.toNat - 48

/-- `CheckersGame.check_tl`, parametric in the `_check_additional_capture`
callback so that the Python mutual recursion can be tied with a fuel knot
below.  The body mirrors the source's two symmetric branches (white /
black) verbatim; `addl g og landing p` stands for
`self._check_additional_capture(og, landing, p)` with `self = g`. -/
def check_tl_with (addl : CheckersGame → Nat × Nat → Nat × Nat → Piece → List Move)
    (g : CheckersGame) (white : Bool) (loc : Nat × Nat) (piece_used : Piece)
    (double : Bool := false) : List Move :=
  if loc.2 ≠ 0 ∧ loc.1 ≠ 7 ∧ white = true then
    match boardAt g.board (loc.1 + 1) (loc.2 - 1) with
    | none =>
        if ¬double then
          [⟨strNat loc.1 ++ strNat loc.2 ++ strNat (loc.1 + 1) ++ strNat (loc.2 - 1), false⟩]
        else []
    | some q =>
        if ¬q.is_white ∧ loc.2 > 1 ∧ loc.1 < 6 ∧
            boardAt g.board (loc.1 + 2) (loc.2 - 2) = none then
          ⟨strNat loc.1 ++ strNat loc.2 ++ strNat (loc.1 + 2) ++ strNat (loc.2 - 2), true⟩ ::
            addl g (loc.1, loc.2) (loc.1 + 2, loc.2 - 2) piece_used
        else []
  else if loc.2 ≠ 0 ∧ loc.1 ≠ 7 ∧ white = false then
    match boardAt g.board (loc.1 + 1) (loc.2 - 1) with
    | none =>
        if ¬double then
          [⟨strNat loc.1 ++ strNat loc.2 ++ strNat (loc.1 + 1) ++ strNat (loc.2 - 1), false⟩]
        else []
    | some q =>
        if q.is_white ∧ loc.2 > 1 ∧ loc.1 < 6 ∧
            boardAt g.board (loc.1 + 2) (loc.2 - 2) = none then
          ⟨strNat loc.1 ++ strNat loc.2 ++ strNat (loc.1 + 2) ++ strNat (loc.2 - 2), true⟩ ::
            addl g (loc.1, loc.2) (loc.1 + 2, loc.2 - 2) piece_used
        else []
  else []

/-- `CheckersGame.check_tr`, parametric as in `check_tl_with`. -/
def check_tr_with (addl : CheckersGame → Nat × Nat → Nat × Nat → Piece → List Move)
    (g : CheckersGame) (white : Bool) (loc : Nat × Nat) (piece_used : Piece)
    (double : Bool := false) : List Move :=
  if loc.2 ≠ 7 ∧ loc.1 ≠ 7 ∧ white = true then
    match boardAt g.board (loc.1 + 1) (loc.2 + 1) with
    | none =>
        if ¬double then
          [⟨strNat loc.1 ++ strNat loc.2 ++ strNat (loc.1 + 1) ++ strNat (loc.2 + 1), false⟩]
        else []
    | some q =>
        if ¬q.is_white ∧ loc.2 < 6 ∧ loc.1 < 6 ∧
            boardAt g.board (loc.1 + 2) (loc.2 + 2) = none then
          ⟨strNat loc.1 ++ strNat loc.2 ++ strNat (loc.1 + 2) ++ strNat (loc.2 + 2), true⟩ ::
            addl g (loc.1, loc.2) (loc.1 + 2, loc.2 + 2) piece_used
        else []
  else if loc.2 ≠ 7 ∧ loc.1 ≠ 7 ∧ white = false then
    match boardAt g.board (loc.1 + 1) (loc.2 + 1) with
    | none =>
        if ¬double then
          [⟨strNat loc.1 ++ strNat loc.2 ++ strNat (loc.1 + 1) ++ strNat (loc.2 + 1), false⟩]
        else []
    | some q =>
        if q.is_white ∧ loc.2 < 6 ∧ loc.1 < 6 ∧
            boardAt g.board (loc.1 + 2) (loc.2 + 2) = none then
          ⟨strNat loc.1 ++ strNat loc.2 ++ strNat (loc.1 + 2) ++ strNat (loc.2 + 2), true⟩ ::
            addl g (loc.1, loc.2) (loc.1 + 2, loc.2 + 2) piece_used
        else []
  else []

/-- `CheckersGame.check_bl`, parametric as in `check_tl_with`. -/
def check_bl_with (addl : CheckersGame → Nat × Nat → Nat × Nat → Piece → List Move)
    (g : CheckersGame) (white : Bool) (loc : Nat × Nat) (piece_used : Piece)
    (double : Bool := false) : List Move :=
  if loc.2 ≠ 0 ∧ loc.1 ≠ 0 ∧ white = true then
    match boardAt g.board (loc.1 - 1) (loc.2 - 1) with
    | none =>
        if ¬double then
          [⟨strNat loc.1 ++ strNat loc.2 ++ strNat (loc.1 - 1) ++ strNat (loc.2 - 1), false⟩]
        else []
    | some q =>
        if ¬q.is_white ∧ loc.2 > 1 ∧ loc.1 > 1 ∧
            boardAt g.board (loc.1 - 2) (loc.2 - 2) = none then
          ⟨strNat loc.1 ++ strNat loc.2 ++ strNat (loc.1 - 2) ++ strNat (loc.2 - 2), true⟩ ::
            addl g (loc.1, loc.2) (loc.1 - 2, loc.2 - 2) piece_used
        else []
  else if loc.2 ≠ 0 ∧ loc.1 ≠ 0 ∧ white = false then
    match boardAt g.board (loc.1 - 1) (loc.2 - 1) with
    | none =>
        if ¬double then
          [⟨strNat loc.1 ++ strNat loc.2 ++ strNat (loc.1 - 1) ++ strNat (loc.2 - 1), false⟩]
        else []
    | some q =>
        if q.is_white ∧ loc.2 > 1 ∧ loc.1 > 1 ∧
            boardAt g.board (loc.1 - 2) (loc.2 - 2) = none then
          ⟨strNat loc.1 ++ strNat loc.2 ++ strNat (loc.1 - 2) ++ strNat (loc.2 - 2), true⟩ ::
            addl g (loc.1, loc.2) (loc.1 - 2, loc.2 - 2) piece_used
        else []
  else []

/-- `CheckersGame.check_br`, parametric as in `check_tl_with`. -/
def check_br_with (addl : CheckersGame → Nat × Nat → Nat × Nat → Piece → List Move)
    (g : CheckersGame) (white : Bool) (loc : Nat × Nat) (piece_used : Piece)
    (double : Bool := false) : List Move :=
  if loc.2 ≠ 7 ∧ loc.1 ≠ 0 ∧ white = true then
    match boardAt g.board (loc.1 - 1) (loc.2 + 1) with
    | none =>
        if ¬double then
          [⟨strNat loc.1 ++ strNat loc.2 ++ strNat (loc.1 - 1) ++ strNat (loc.2 + 1), false⟩]
        else []
    | some q =>
        if ¬q.is_white ∧ loc.2 < 6 ∧ loc.1 > 1 ∧
            boardAt g.board (loc.1 - 2) (loc.2 + 2) = none then
          ⟨strNat loc.1 ++ strNat loc.2 ++ strNat (loc.1 - 2) ++ strNat (loc.2 + 2), true⟩ ::
            addl g (loc.1, loc.2) (loc.1 - 2, loc.2 + 2) piece_used
        else []
  else if loc.2 ≠ 7 ∧ loc.1 ≠ 0 ∧ white = false then
    match boardAt g.board (loc.1 - 1) (loc.2 + 1) with
    | none =>
        if ¬double then
          [⟨strNat loc.1 ++ strNat loc.2 ++ strNat (loc.1 - 1) ++ strNat (loc.2 + 1), false⟩]
        else []
    | some q =>
        if q.is_white ∧ loc.2 < 6 ∧ loc.1 > 1 ∧
            boardAt g.board (loc.1 - 2) (loc.2 + 2) = none then
          ⟨strNat loc.1 ++ strNat loc.2 ++ strNat (loc.1 - 2) ++ strNat (loc.2 + 2), true⟩ ::
            addl g (loc.1, loc.2) (loc.1 - 2, loc.2 + 2) piece_used
        else []
  else []

/-- `CheckersGame._check_additional_capture` with an explicit fuel.  Each
Python recursion level works on a deep copy of the board from which the
just-jumped piece has been removed, so the real recursion depth is
bounded by the number of pieces on the board (at most 64) plus one; the
fuel-zero branch is dead code for the fuel used at the entry points. -/
def check_additional_fuel : Nat → CheckersGame → Nat × Nat → Nat × Nat → Piece → List Move
  | 0, _, _, _, _ => []
  | fuel + 1, g, og_loc, loc, piece_used =>
      let copy := g.make_copy_game
      let test_game : CheckersGame :=
        { copy with board := boardSet copy.board ((og_loc.1 + loc.1) / 2) ((og_loc.2 + loc.2) / 2) none }
      let addl := check_additional_fuel fuel
      let moves_list :=
        if g.is_white_move ∧ ¬piece_used.is_king then
          check_tl_with addl test_game g.is_white_move loc piece_used true ++
          check_tr_with addl test_game g.is_white_move loc piece_used true
        else if ¬g.is_white_move ∧ ¬piece_used.is_king then
          check_bl_with addl test_game g.is_white_move loc piece_used true ++
          check_br_with addl test_game g.is_white_move loc piece_used true
        else
          check_tl_with addl test_game g.is_white_move loc piece_used true ++
          check_tr_with addl test_game g.is_white_move loc piece_used true ++
          check_bl_with addl test_game g.is_white_move loc piece_used true ++
          check_br_with addl test_game g.is_white_move loc piece_used true
      moves_list.map (fun m => { m with move := strNat og_loc.1 ++ strNat og_loc.2 ++ m.move })

/-- Fuel used at every top-level entry point; with at most 64 pieces on
the board, the real recursion depth never exceeds 66. -/
def GAMEFUEL : Nat := 70

/-- `CheckersGame._check_additional_capture`. -/
def CheckersGame.check_additional_capture (g : CheckersGame)
    (og_loc loc : Nat × Nat) (piece_used : Piece) : List Move :=
  check_additional_fuel GAMEFUEL g og_loc loc piece_used

/-- `CheckersGame.check_tl`. -/
def CheckersGame.check_tl (g : CheckersGame) (white : Bool) (loc : Nat × Nat)
    (piece_used : Piece) (double : Bool := false) : List Move :=
  check_tl_with (check_additional_fuel GAMEFUEL) g white loc piece_used double

/-- `CheckersGame.check_tr`. -/
def CheckersGame.check_tr (g : CheckersGame) (white : Bool) (loc : Nat × Nat)
    (piece_used : Piece) (double : Bool := false) : List Move :=
  check_tr_with (check_additional_fuel GAMEFUEL) g white loc piece_used double

/-- `CheckersGame.check_bl`. -/
def CheckersGame.check_bl (g : CheckersGame) (white : Bool) (loc : Nat × Nat)
    (piece_used : Piece) (double : Bool := false) : List Move :=
  check_bl_with (check_additional_fuel GAMEFUEL) g white loc piece_used double

/-- `CheckersGame.check_br`. -/
def CheckersGame.check_br (g : CheckersGame) (white : Bool) (loc : Nat × Nat)
    (piece_used : Piece) (double : Bool := false) : List Move :=
  check_br_with (check_additional_fuel GAMEFUEL) g white loc piece_used double

/-- `CheckersGame.find_legal_moves`: union the directional probes over the
side to move's pieces, then keep only captures when any capture exists. -/
def CheckersGame.find_legal_moves (g : CheckersGame) : List Move :=
  let normal_moves :=
    if g.is_white_move then
      (g.return_all_pieces_location "white").foldl (fun acc pi =>
        let acc := acc ++ g.check_tl g.is_white_move pi.1 pi.2
        let acc := acc ++ g.check_tr g.is_white_move pi.1 pi.2
        if pi.2.is_king then
          (acc ++ g.check_bl g.is_white_move pi.1 pi.2) ++ g.check_br g.is_white_move pi.1 pi.2
        else acc) []
    else
      (g.return_all_pieces_location "black").foldl (fun acc pi =>
        let acc := acc ++ g.check_bl g.is_white_move pi.1 pi.2
        let acc := acc ++ g.check_br g.is_white_move pi.1 pi.2
        if pi.2.is_king then
          (acc ++ g.check_tl g.is_white_move pi.1 pi.2) ++ g.check_tr g.is_white_move pi.1 pi.2
        else acc) []
  let capture_moves := normal_moves.filter (fun m => m.piece_captured)
  if capture_moves ≠ [] then capture_moves else normal_moves

/-- `CheckersGame.find_legal_moves_one_piece`: the same two-pass logic as
`find_legal_moves`, but over the single given piece only. -/
def CheckersGame.find_legal_moves_one_piece (g : CheckersGame)
    (piece_info : (Nat × Nat) × Piece) : List Move :=
  let normal_moves :=
    if g.is_white_move then
      let acc := g.check_tl g.is_white_move piece_info.1 piece_info.2
      let acc := acc ++ g.check_tr g.is_white_move piece_info.1 piece_info.2
      if piece_info.2.is_king then
        (acc ++ g.check_bl g.is_white_move piece_info.1 piece_info.2) ++
          g.check_br g.is_white_move piece_info.1 piece_info.2
      else acc
    else
      let acc := g.check_bl g.is_white_move piece_info.1 piece_info.2
      let acc := acc ++ g.check_br g.is_white_move piece_info.1 piece_info.2
      if piece_info.2.is_king then
        (acc ++ g.check_tl g.is_white_move piece_info.1 piece_info.2) ++
          g.check_tr g.is_white_move piece_info.1 piece_info.2
      else acc
  let capture_moves := normal_moves.filter (fun m => m.piece_captured)
  if capture_moves ≠ [] then capture_moves else normal_moves

/-- `CheckersGame._update_pieces`: king every white piece on row 7 and
every black piece on row 0 (expressed cell-wise; the source mutates the
`Piece` objects it finds at those cells). -/
def update_pieces_board (b : Board) : Board := fun i j =>
  match b i j with
  | none => none
  | some p =>
      if p.is_white ∧ i.val = 7 then some { p with is_king := true }
      else if ¬p.is_white ∧ i.val = 0 then some { p with is_king := true }
      else some p

/-- The capture-chain relocation loop of `make_move`: for each consecutive
coordinate pair, move the piece and clear the jumped midpoint square. -/
def applyCaptureHops (b : Board) : List Nat → Board
  | r0 :: c0 :: r1 :: c1 :: rest =>
      let old := boardAt b r0 c0
      let b1 := boardSet b r0 c0 none
      let b2 := boardSet b1 r1 c1 old
      let b3 := boardSet b2 ((r0 + r1) / 2) ((c0 + c1) / 2) none
      applyCaptureHops b3 (r1 :: c1 :: rest)
  | _ => b

/-- `CheckersGame.make_move`. -/
def CheckersGame.make_move (g : CheckersGame) (move : Move) : CheckersGame :=
  let digits := move.move.map pyDigit
  let board1 :=
    if ¬move.piece_captured then
      let old := boardAt g.board (digits.getD 0 0) (digits.getD 1 0)
      boardSet (boardSet g.board (digits.getD 0 0) (digits.getD 1 0) none)
        (digits.getD 2 0) (digits.getD 3 0) old
    else
      applyCaptureHops g.board digits
  let gAfter : CheckersGame :=
    { g with
      board := update_pieces_board board1
      is_white_move := !g.is_white_move
      moves_since_cap := (if move.piece_captured then (-1 : Int) else g.moves_since_cap) + 1 }
  if gAfter.find_legal_moves = [] ∧ gAfter.is_white_move ∧ gAfter.main_game then
    { gAfter with white_win := false, gamestate := "END" }
  else if gAfter.find_legal_moves = [] ∧ ¬gAfter.is_white_move ∧ gAfter.main_game then
    { gAfter with white_win := true, gamestate := "END" }
  else if gAfter.moves_since_cap ≥ 50 ∧ gAfter.main_game then
    { gAfter with white_win := true, is_draw := true, gamestate := "END" }
  else gAfter

/-! ### Game trees and bots (final_trees_and_bots.py) -/

/-- Class `CheckersGameTree`. -/
inductive CheckersGameTree where
  | mk (move : Move) (white_turn : Bool) (subtrees : List CheckersGameTree)

/-- Field accessor `tree.move`. -/
def CheckersGameTree.move : CheckersGameTree → Move
  | .mk m _ _ => m

/-- Field accessor `tree.white_turn`. -/
def CheckersGameTree.white_turn : CheckersGameTree → Bool
  | .mk _ w _ => w

/-- Field accessor `tree.subtrees`. -/
def CheckersGameTree.subtrees : CheckersGameTree → List CheckersGameTree
  | .mk _ _ s => s

/-- `generate_game_tree`. -/
def generate_game_tree : Nat → CheckersGame → Move → CheckersGameTree
  | 0, game, root => .mk root game.is_white_move []
  | depth + 1, game, root =>
      .mk root game.is_white_move
        (game.find_legal_moves.map (fun possible_move =>
          generate_game_tree depth ((game.make_copy_game).make_move possible_move) possible_move))

/-- The leaf evaluation `len(white_pieces) - len(black_pieces)`. -/
def pieceScore (game : CheckersGame) : Int :=
  ((game.return_all_pieces_location "white").length : Int) -
    ((game.return_all_pieces_location "black").length : Int)

/-- Scores during alpha-beta search: integers extended with `float('-inf')`
(`⊥`) and `float('inf')` (`⊤`). -/
abbrev Score := WithBot (WithTop ℤ)

/-- An integer as a `Score`. -/
def intVal (n : ℤ) : Score := ((n : WithTop ℤ) : Score)

mutual

/-- `MinimaxBot.calc_best_move` (plain minimax).  The Python source
duplicates the max/min selection loop in the `tree.move.move != ''` and
root branches; both compute the same `subtree_moves` list and the same
best value, so the selection is written once here followed by the same
root test the source performs on the returned pair. -/
def calc_best_move (game : CheckersGame) : CheckersGameTree → Move × Int
  | .mk mv _ [] => (mv, pieceScore game)
  | .mk mv _ (st :: rest) =>
      match calc_list game (st :: rest) with
      | [] => (mv, pieceScore game)
      | r0 :: rs =>
          let best :=
            if game.is_white_move then
              (r0 :: rs).foldl (fun b p => if p.2 > b.2 then p else b) r0
            else
              (r0 :: rs).foldl (fun b p => if p.2 < b.2 then p else b) r0
          if mv.move ≠ [] then (mv, best.2) else best

/-- The `for subtree in tree.subtrees` loop of `calc_best_move`: each
subtree is evaluated on a deep copy of the game with the subtree's move
applied. -/
def calc_list (game : CheckersGame) : List CheckersGameTree → List (Move × Int)
  | [] => []
  | st :: rest =>
      calc_best_move ((game.make_copy_game).make_move st.move) st :: calc_list game rest

end

mutual

/-- `MinimaxPruneBot.calc_best_move` (alpha-beta). -/
def calc_best_move_prune (game : CheckersGame) :
    CheckersGameTree → Score → Score → Move × Score
  | .mk mv _ [], _, _ => (mv, intVal (pieceScore game))
  | .mk mv _ (st :: rest), alpha, beta =>
      if game.is_white_move then
        prune_loop_white game mv (st :: rest) alpha beta (⟨[], false⟩, ⊥)
      else
        prune_loop_black game mv (st :: rest) alpha beta (⟨[], false⟩, ⊤)

/-- The white (maximising) subtree loop of the pruning bot, with the
running `best_move`, the `alpha = max(alpha, best_move[1])` update and the
`beta <= alpha` early return of the source. -/
def prune_loop_white (game : CheckersGame) (rootMove : Move) :
    List CheckersGameTree → Score → Score → Move × Score → Move × Score
  | [], _, _, best => if rootMove.move = [] then best else (rootMove, best.2)
  | st :: rest, alpha, beta, best =>
      let potential := calc_best_move_prune ((game.make_copy_game).make_move st.move) st alpha beta
      let best1 := if potential.2 > best.2 then potential else best
      let alpha1 := max alpha best1.2
      if beta ≤ alpha1 then (if rootMove.move = [] then best1 else (rootMove, best1.2))
      else prune_loop_white game rootMove rest alpha1 beta best1

/-- The black (minimising) subtree loop of the pruning bot. -/
def prune_loop_black (game : CheckersGame) (rootMove : Move) :
    List CheckersGameTree → Score → Score → Move × Score → Move × Score
  | [], _, _, best => if rootMove.move = [] then best else (rootMove, best.2)
  | st :: rest, alpha, beta, best =>
      let potential := calc_best_move_prune ((game.make_copy_game).make_move st.move) st alpha beta
      let best1 := if potential.2 < best.2 then potential else best
      let beta1 := min beta best1.2
      if beta1 ≤ alpha then (if rootMove.move = [] then best1 else (rootMove, best1.2))
      else prune_loop_black game rootMove rest alpha beta1 best1

end

/-! ### Tree codec (export_tree / import_tree) -/

/-- One line of the tree file, already split at the comma the way
`import_tree` does with `row.split(',')`: the move digits followed by the
captured and side flag characters, and the child count. -/
abbrev TreeLine := List Char × Nat

mutual

/-- `export_tree`: pre-order, one line per node (move digits, captured
flag, side flag, child count). -/
def export_tree : CheckersGameTree → List TreeLine
  | .mk mv wt subtrees =>
      (mv.move ++ [if mv.piece_captured then '1' else '0'] ++ [if wt then '1' else '0'],
        subtrees.length) :: export_forest subtrees

/-- The `for subtree in tree.subtrees: export_tree(...)` loop. -/
def export_forest : List CheckersGameTree → List TreeLine
  | [] => []
  | t :: ts => export_tree t ++ export_forest ts

end

/-- `s[0:-2]` on a character list. -/
def pyDropLast2 (s : List Char) : List Char := s.dropLast.dropLast

/-- `s[-2]` on a character list (the lines fed in always have length at
least 2). -/
def pyCharM2 (s : List Char) : Char := s.dropLast.getLastD '0'

/-- `s[-1]` on a character list. -/
def pyCharM1 (s : List Char) : Char := s.getLastD '0'

/-- `bool(int(c))` for a digit character. -/
def pyBoolDigit (c : Char) : Bool := pyDigit c ≠ 0

/-- The `CheckersGameTree(Move(line[0:-2], bool(int(line[-2]))),
bool(int(line[-1])))` node built by `import_compile` from a line. -/
def nodeOfLine (line : TreeLine) (subtrees : List CheckersGameTree) : CheckersGameTree :=
  .mk (Move.mk (pyDropLast2 line.1) (pyBoolDigit (pyCharM2 line.1)))
    (pyBoolDigit (pyCharM1 line.1)) subtrees

mutual

/-- `import_compile` with explicit fuel bounding the call depth (the
Python recursion terminates because every call consumes at least one
line; the fuel-zero branch is dead for the fuel supplied by
`import_tree`).  Returns the rebuilt tree and the final `data_index`. -/
def import_compile_fuel : Nat → List TreeLine → CheckersGameTree × Nat
  | 0, _ => (nodeOfLine ([], 0) [], 1)
  | fuel + 1, data =>
      match data with
      | [] => (nodeOfLine ([], 0) [], 1)
      | first :: rest =>
          let r := import_loop_fuel fuel first.2 rest 1 0 []
          (nodeOfLine first r.1, r.2)

/-- The `while data_index < len(imported_data) and subtrees_added <
int(imported_data[0][1])` loop of `import_compile`; `remaining` is
`imported_data[data_index:]` and the accumulated children are returned
together with the final `data_index`. -/
def import_loop_fuel : Nat → Nat → List TreeLine → Nat → Nat →
    List CheckersGameTree → List CheckersGameTree × Nat
  | 0, _, _, data_index, _, acc => (acc, data_index)
  | fuel + 1, limit, remaining, data_index, subtrees_added, acc =>
      match remaining with
      | [] => (acc, data_index)
      | line :: rem1 =>
          if subtrees_added < limit then
            if line.2 = 0 then
              import_loop_fuel fuel limit rem1 (data_index + 1) (subtrees_added + 1)
                (acc ++ [nodeOfLine line []])
            else
              let vs := import_compile_fuel fuel (line :: rem1)
              import_loop_fuel fuel limit ((line :: rem1).drop vs.2) (data_index + vs.2)
                (subtrees_added + 1) (acc ++ [vs.1])
          else (acc, data_index)

end

/-- `import_tree`: read all lines, reverse their order, compile, return
the first component.  The fuel comfortably bounds the loop-plus-nesting
call depth, which never exceeds twice the number of lines. -/
def import_tree (lines : List TreeLine) : CheckersGameTree :=
  (import_compile_fuel (2 * lines.length + 4) lines.reverse).1

/-! ### Reference semantics of the default board (for the aliasing claim)

`CheckersGame.__init__` with no board argument stores the module-level
`DEFAULT_BOARD_SETUP` list object itself.  To state what that sharing
means, games carry a board *reference*: either the default-board object
or an owned board value, and the store holds the current contents of the
default-board object. -/

/-- What a game's `board` attribute points at. -/
inductive BoardRef where
  | defaultRef
  | own (b : Board)

/-- The mutable contents of the module-level `DEFAULT_BOARD_SETUP` object. -/
abbrev ModuleStore := Board

/-- A `CheckersGame` under reference semantics. -/
structure PyCheckersGame where
  board_ref : BoardRef
  is_white_move : Bool
  gamestate : String
  white_win : Bool
  player_turn : Bool
  moves_since_cap : Int
  is_draw : Bool
  main_game : Bool

/-- `CheckersGame.__init__` under reference semantics: with `board=None`
the new game aliases the default-board object. -/
def pyNewCheckersGame (is_white_move : Bool := true) (board : Option Board := none)
    (gamestate : String := "MENU") : PyCheckersGame :=
  { board_ref := match board with
      | none => .defaultRef
      | some b => .own b
    is_white_move := is_white_move
    gamestate := gamestate
    white_win := true
    player_turn := true
    moves_since_cap := 0
    is_draw := false
    main_game := true }

/-- Dereference a game's board through the store. -/
def readBoard (store : ModuleStore) (g : PyCheckersGame) : Board :=
  match g.board_ref with
  | .defaultRef => store
  | .own b => b

/-- The value-semantics view of a reference-semantics game. -/
def toValueGame (store : ModuleStore) (g : PyCheckersGame) : CheckersGame :=
  { board := readBoard store g
    is_white_move := g.is_white_move
    gamestate := g.gamestate
    white_win := g.white_win
    player_turn := g.player_turn
    moves_since_cap := g.moves_since_cap
    is_draw := g.is_draw
    main_game := g.main_game }

/-- `make_move` under reference semantics: the board mutations of
`CheckersGame.make_move` land in whatever object `board` references, so a
default-constructed game writes through to the module-level default
board. -/
def pyMakeMove (store : ModuleStore) (g : PyCheckersGame) (m : Move) :
    ModuleStore × PyCheckersGame :=
  let res := (toValueGame store g).make_move m
  let g1 : PyCheckersGame :=
    { g with
      is_white_move := res.is_white_move
      gamestate := res.gamestate
      white_win := res.white_win
      moves_since_cap := res.moves_since_cap
      is_draw := res.is_draw }
  match g.board_ref with
  | .defaultRef => (res.board, g1)
  | .own _ => (store, { g1 with board_ref := .own res.board })

/-! ### Basic lemmas about the board and the piece scan -/

theorem boardAt_lt (b : Board) (i j : Nat) (hi : i < 8) (hj : j < 8) :
    boardAt b i j = b ⟨i, hi⟩ ⟨j, hj⟩ := by
  simp [boardAt, hi, hj]

theorem boardAt_eq_some (b : Board) (i j : Nat) (p : Piece)
    (h : boardAt b i j = some p) : ∃ hi : i < 8, ∃ hj : j < 8, b ⟨i, hi⟩ ⟨j, hj⟩ = some p := by
  by_cases hij : i < 8 ∧ j < 8
  · exact ⟨hij.1, hij.2, by rw [← boardAt_lt b i j hij.1 hij.2]; exact h⟩
  · rw [boardAt, dif_neg hij] at h; cases h

theorem boardAt_boardSet_ne (b : Board) (i j i' j' : Nat) (v : Option Piece)
    (hi' : i' < 8) (hj' : j' < 8) (h : i' ≠ i ∨ j' ≠ j) :
    boardAt (boardSet b i j v) i' j' = boardAt b i' j' := by
  rw [boardAt_lt _ _ _ hi' hj', boardAt_lt _ _ _ hi' hj', boardSet]
  have : ¬((⟨i', hi'⟩ : Fin 8).val = i ∧ (⟨j', hj'⟩ : Fin 8).val = j) := by
    simp only [Fin.val_mk]; omega
  simp [this]

theorem foldl_extend_eq {α β : Type} (f : List β → α → List β) (h : α → List β)
    (hf : ∀ acc x, f acc x = acc ++ h x) (l : List α) (init : List β) :
    l.foldl f init = init ++ l.flatMap h := by
  induction l generalizing init with
  | nil => simp
  | cons x xs ih => simp [hf, ih, List.append_assoc]

/-- The per-cell contribution of `return_all_pieces_location` for colour
`"white"`. -/
theorem return_all_pieces_white_eq (g : CheckersGame) :
    g.return_all_pieces_location "white" =
      (List.range 8).flatMap (fun row => (List.range 8).flatMap (fun col =>
        match boardAt g.board row col with
        | none => []
        | some p => if p.is_white then [((row, col), p)] else [])) := by
  unfold CheckersGame.return_all_pieces_location
  refine (foldl_extend_eq _ (fun row => (List.range 8).flatMap (fun col =>
    match boardAt g.board row col with
    | none => []
    | some p => if p.is_white then [((row, col), p)] else [])) ?_ _ []).trans (by simp)
  intro acc row
  refine foldl_extend_eq _ _ ?_ _ _
  intro acc2 col
  rcases boardAt g.board row col with _ | p
  · simp
  · by_cases hw : p.is_white <;> simp [hw]

/-- The per-cell contribution of `return_all_pieces_location` for colour
`"black"`. -/
theorem return_all_pieces_black_eq (g : CheckersGame) :
    g.return_all_pieces_location "black" =
      (List.range 8).flatMap (fun row => (List.range 8).flatMap (fun col =>
        match boardAt g.board row col with
        | none => []
        | some p => if ¬p.is_white then [((row, col), p)] else [])) := by
  unfold CheckersGame.return_all_pieces_location
  refine (foldl_extend_eq _ (fun row => (List.range 8).flatMap (fun col =>
    match boardAt g.board row col with
    | none => []
    | some p => if ¬p.is_white then [((row, col), p)] else [])) ?_ _ []).trans (by simp)
  intro acc row
  refine foldl_extend_eq _ _ ?_ _ _
  intro acc2 col
  rcases boardAt g.board row col with _ | p
  · simp
  · by_cases hw : p.is_white <;> simp [hw]

theorem mem_return_all_pieces_white (g : CheckersGame) (r c : Nat) (p : Piece) :
    ((r, c), p) ∈ g.return_all_pieces_location "white" ↔
      r < 8 ∧ c < 8 ∧ boardAt g.board r c = some p ∧ p.is_white = true := by
  rw [return_all_pieces_white_eq]
  simp only [List.mem_flatMap, List.mem_range]
  constructor
  · rintro ⟨row, hrow, col, hcol, hmem⟩
    rcases hcell : boardAt g.board row col with _ | q
    · rw [hcell] at hmem; simp at hmem
    · rw [hcell] at hmem
      by_cases hw : q.is_white
      · simp only [hw, if_pos] at hmem
        simp only [List.mem_singleton, Prod.mk.injEq] at hmem
        obtain ⟨⟨h1, h2⟩, h3⟩ := hmem
        subst h1; subst h2; subst h3
        exact ⟨hrow, hcol, hcell, hw⟩
      · simp [hw] at hmem
  · rintro ⟨hr, hc, hcell, hw⟩
    exact ⟨r, hr, c, hc, by rw [hcell]; simp [hw]⟩

theorem mem_return_all_pieces_black (g : CheckersGame) (r c : Nat) (p : Piece) :
    ((r, c), p) ∈ g.return_all_pieces_location "black" ↔
      r < 8 ∧ c < 8 ∧ boardAt g.board r c = some p ∧ p.is_white = false := by
  rw [return_all_pieces_black_eq]
  simp only [List.mem_flatMap, List.mem_range]
  constructor
  · rintro ⟨row, hrow, col, hcol, hmem⟩
    rcases hcell : boardAt g.board row col with _ | q
    · rw [hcell] at hmem; simp at hmem
    · rw [hcell] at hmem
      by_cases hw : q.is_white
      · simp [hw] at hmem
      · simp only [hw, Bool.false_eq_true, not_false_eq_true, if_pos] at hmem
        simp only [List.mem_singleton, Prod.mk.injEq] at hmem
        obtain ⟨⟨h1, h2⟩, h3⟩ := hmem
        subst h1; subst h2; subst h3
        exact ⟨hrow, hcol, hcell, by simpa using hw⟩
  · rintro ⟨hr, hc, hcell, hw⟩
    exact ⟨r, hr, c, hc, by rw [hcell]; simp [hw]⟩

/-- The flat list of directional probe results `find_legal_moves` unions
before the capture filter (white to move). -/
theorem find_legal_moves_white_normal (g : CheckersGame) (hw : g.is_white_move = true) :
    ∃ normal : List Move,
      normal = (g.return_all_pieces_location "white").flatMap (fun pi =>
        g.check_tl g.is_white_move pi.1 pi.2 ++ (g.check_tr g.is_white_move pi.1 pi.2 ++
          (if pi.2.is_king then
            g.check_bl g.is_white_move pi.1 pi.2 ++ g.check_br g.is_white_move pi.1 pi.2
          else []))) ∧
      g.find_legal_moves =
        (if normal.filter (fun m => m.piece_captured) ≠ [] then
          normal.filter (fun m => m.piece_captured) else normal) := by
  refine ⟨_, rfl, ?_⟩
  unfold CheckersGame.find_legal_moves
  rw [if_pos hw]
  have hfold : (g.return_all_pieces_location "white").foldl (fun acc pi =>
      let acc1 := acc ++ g.check_tl g.is_white_move pi.1 pi.2
      let acc2 := acc1 ++ g.check_tr g.is_white_move pi.1 pi.2
      if pi.2.is_king then
        (acc2 ++ g.check_bl g.is_white_move pi.1 pi.2) ++ g.check_br g.is_white_move pi.1 pi.2
      else acc2) [] =
      (g.return_all_pieces_location "white").flatMap (fun pi =>
        g.check_tl g.is_white_move pi.1 pi.2 ++ (g.check_tr g.is_white_move pi.1 pi.2 ++
          (if pi.2.is_king then
            g.check_bl g.is_white_move pi.1 pi.2 ++ g.check_br g.is_white_move pi.1 pi.2
          else []))) := by
    refine (foldl_extend_eq _ (fun pi =>
      g.check_tl g.is_white_move pi.1 pi.2 ++ (g.check_tr g.is_white_move pi.1 pi.2 ++
        (if pi.2.is_king then
          g.check_bl g.is_white_move pi.1 pi.2 ++ g.check_br g.is_white_move pi.1 pi.2
        else []))) ?_ _ []).trans (by simp)
    intro acc pi
    by_cases hk : pi.2.is_king <;> simp [hk, List.append_assoc]
  rw [hfold]

/-- The two-pass capture filter, abstracted over the collected move list. -/
theorem mandatory_filter_aux (normal : List Move) :
    (∃ mv ∈ (if normal.filter (fun m => m.piece_captured) ≠ [] then
        normal.filter (fun m => m.piece_captured) else normal), mv.piece_captured = true) →
    ∀ mv ∈ (if normal.filter (fun m => m.piece_captured) ≠ [] then
        normal.filter (fun m => m.piece_captured) else normal), mv.piece_captured = true := by
  by_cases hne : normal.filter (fun m => m.piece_captured) ≠ []
  · rw [if_pos hne]
    intro _ mv hmv
    exact (List.mem_filter.mp hmv).2
  · rw [if_neg hne]
    rintro ⟨mv0, hmv0, hcap0⟩ mv hmv
    exfalso
    exact hne (List.ne_nil_of_mem (List.mem_filter.mpr ⟨hmv0, hcap0⟩))

/-- C5: whenever `find_legal_moves` returns any capture move, every
returned move is a capture (mandatory capture rule). -/
theorem c5_mandatory_capture (g : CheckersGame)
    (h : ∃ mv ∈ g.find_legal_moves, mv.piece_captured = true) :
    ∀ mv ∈ g.find_legal_moves, mv.piece_captured = true := by
  unfold CheckersGame.find_legal_moves at *
  exact mandatory_filter_aux _ h

/-- `find_legal_moves` reads only the board and the side to move. -/
theorem find_legal_moves_congr (g1 g2 : CheckersGame)
    (hb : g1.board = g2.board) (hm : g1.is_white_move = g2.is_white_move) :
    g1.find_legal_moves = g2.find_legal_moves := by
  obtain ⟨b1, m1, s1, w1, t1, c1, d1, g1⟩ := g1
  obtain ⟨b2, m2, s2, w2, t2, c2, d2, g2⟩ := g2
  cases hb
  cases hm
  rfl

/-! ### The terminal check of `make_move` (used for claim C4) -/

/-- The state `make_move` has built just before its terminal check: board
updated and promotion-swept, side toggled, counter adjusted. -/
def postMove (g : CheckersGame) (move : Move) : CheckersGame :=
  let digits := move.move.map pyDigit
  let board1 :=
    if ¬move.piece_captured then
      let old := boardAt g.board (digits.getD 0 0) (digits.getD 1 0)
      boardSet (boardSet g.board (digits.getD 0 0) (digits.getD 1 0) none)
        (digits.getD 2 0) (digits.getD 3 0) old
    else
      applyCaptureHops g.board digits
  { g with
    board := update_pieces_board board1
    is_white_move := !g.is_white_move
    moves_since_cap := (if move.piece_captured then (-1 : Int) else g.moves_since_cap) + 1 }

/-- The terminal if/elif chain at the end of `make_move`. -/
def outcomeStep (gA : CheckersGame) : CheckersGame :=
  if gA.find_legal_moves = [] ∧ gA.is_white_move ∧ gA.main_game then
    { gA with white_win := false, gamestate := "END" }
  else if gA.find_legal_moves = [] ∧ ¬gA.is_white_move ∧ gA.main_game then
    { gA with white_win := true, gamestate := "END" }
  else if gA.moves_since_cap ≥ 50 ∧ gA.main_game then
    { gA with white_win := true, is_draw := true, gamestate := "END" }
  else gA

theorem make_move_eq_outcomeStep (g : CheckersGame) (move : Move) :
    g.make_move move = outcomeStep (postMove g move) := rfl

theorem outcomeStep_find_legal_moves (gA : CheckersGame) :
    (outcomeStep gA).find_legal_moves = gA.find_legal_moves := by
  unfold outcomeStep
  split_ifs <;> exact find_legal_moves_congr _ _ rfl rfl

theorem outcomeStep_is_white_move (gA : CheckersGame) :
    (outcomeStep gA).is_white_move = gA.is_white_move := by
  unfold outcomeStep; split_ifs <;> rfl

theorem outcomeStep_moves_since_cap (gA : CheckersGame) :
    (outcomeStep gA).moves_since_cap = gA.moves_since_cap := by
  unfold outcomeStep; split_ifs <;> rfl

theorem outcomeStep_main_false (gA : CheckersGame) (h : gA.main_game = false) :
    outcomeStep gA = gA := by
  unfold outcomeStep
  split_ifs with h1 h2 h3
  · rw [h] at h1; simp at h1
  · rw [h] at h2; simp at h2
  · rw [h] at h3; simp at h3
  · rfl

/-- C4: after `make_move` on a root game, zero legal moves for the new
side to move means the other side wins and the game ends; otherwise a
no-capture counter of at least 50 gives a draw, and below 50 the outcome
fields are untouched.  On a non-root copy the outcome fields never
change. -/
theorem c4_make_move_terminal (g : CheckersGame) (m : Move) :
    (g.main_game = true →
      (((g.make_move m).find_legal_moves = [] →
          (g.make_move m).gamestate = "END" ∧
          (g.make_move m).white_win = !(g.make_move m).is_white_move) ∧
        ((g.make_move m).find_legal_moves ≠ [] → 50 ≤ (g.make_move m).moves_since_cap →
          (g.make_move m).gamestate = "END" ∧ (g.make_move m).is_draw = true) ∧
        ((g.make_move m).find_legal_moves ≠ [] → (g.make_move m).moves_since_cap < 50 →
          (g.make_move m).gamestate = g.gamestate ∧
          (g.make_move m).white_win = g.white_win ∧
          (g.make_move m).is_draw = g.is_draw))) ∧
    (g.main_game = false →
      (g.make_move m).gamestate = g.gamestate ∧
      (g.make_move m).white_win = g.white_win ∧
      (g.make_move m).is_draw = g.is_draw) := by
  rw [make_move_eq_outcomeStep]
  have hmain : (postMove g m).main_game = g.main_game := rfl
  have hgs : (postMove g m).gamestate = g.gamestate := rfl
  have hww : (postMove g m).white_win = g.white_win := rfl
  have hdr : (postMove g m).is_draw = g.is_draw := rfl
  constructor
  · intro hroot
    refine ⟨?_, ?_, ?_⟩
    · rw [outcomeStep_find_legal_moves, outcomeStep_is_white_move]
      intro hempty
      unfold outcomeStep
      rcases hwm : (postMove g m).is_white_move with _ | _
      · rw [if_neg (by simp), if_pos ⟨hempty, by simp, by rw [hmain]; exact hroot⟩]
        simp
      · rw [if_pos ⟨hempty, rfl, by rw [hmain]; exact hroot⟩]
        simp
    · rw [outcomeStep_find_legal_moves, outcomeStep_moves_since_cap]
      intro hne h50
      unfold outcomeStep
      rw [if_neg (by simp [hne]), if_neg (by simp [hne]),
        if_pos (by rw [hmain, hroot]; exact ⟨h50, rfl⟩)]
      simp
    · rw [outcomeStep_find_legal_moves, outcomeStep_moves_since_cap]
      intro hne h50
      unfold outcomeStep
      rw [if_neg (by simp [hne]), if_neg (by simp [hne]), if_neg (by
        rintro ⟨h1, _⟩
        omega)]
      exact ⟨hgs, hww, hdr⟩
  · intro hcopy
    rw [outcomeStep_main_false _ (by rw [hmain]; exact hcopy)]
    exact ⟨hgs, hww, hdr⟩

/-! ### Promotion lemmas (claim C8) -/

/-- The board `make_move` relocated pieces on, before the promotion
sweep. -/
def preBoard (g : CheckersGame) (move : Move) : Board :=
  if ¬move.piece_captured then
    boardSet
      (boardSet g.board ((move.move.map pyDigit).getD 0 0) ((move.move.map pyDigit).getD 1 0) none)
      ((move.move.map pyDigit).getD 2 0) ((move.move.map pyDigit).getD 3 0)
      (boardAt g.board ((move.move.map pyDigit).getD 0 0) ((move.move.map pyDigit).getD 1 0))
  else
    applyCaptureHops g.board (move.move.map pyDigit)

theorem make_move_board (g : CheckersGame) (move : Move) :
    (g.make_move move).board = update_pieces_board (preBoard g move) := by
  rw [make_move_eq_outcomeStep]
  have : (outcomeStep (postMove g move)).board = (postMove g move).board := by
    unfold outcomeStep; split_ifs <;> rfl
  rw [this]; rfl

theorem boardSet_some (b : Board) (i j : Nat) (v : Option Piece) (i0 j0 : Fin 8) (p : Piece)
    (h : boardSet b i j v i0 j0 = some p) : v = some p ∨ b i0 j0 = some p := by
  unfold boardSet at h
  split_ifs at h
  · exact Or.inl h
  · exact Or.inr h

theorem applyCaptureHops_origin : ∀ (l : List Nat) (b : Board) (i1 j1 : Fin 8) (p : Piece),
    applyCaptureHops b l i1 j1 = some p → ∃ i0 j0 : Fin 8, b i0 j0 = some p
  | r0 :: c0 :: r1 :: c1 :: rest, b, i1, j1, p, h => by
      rw [applyCaptureHops] at h
      obtain ⟨i2, j2, h2⟩ := applyCaptureHops_origin (r1 :: c1 :: rest) _ i1 j1 p h
      rcases boardSet_some _ _ _ _ _ _ _ h2 with h3 | h3
      · cases h3
      rcases boardSet_some _ _ _ _ _ _ _ h3 with h4 | h4
      · obtain ⟨hi, hj, h5⟩ := boardAt_eq_some _ _ _ _ h4
        exact ⟨_, _, h5⟩
      rcases boardSet_some _ _ _ _ _ _ _ h4 with h5 | h5
      · cases h5
      · exact ⟨i2, j2, h5⟩
  | [], b, i1, j1, p, h => ⟨i1, j1, h⟩
  | [x], b, i1, j1, p, h => ⟨i1, j1, h⟩
  | [x, y], b, i1, j1, p, h => ⟨i1, j1, h⟩
  | [x, y, z], b, i1, j1, p, h => ⟨i1, j1, h⟩

theorem preBoard_origin (g : CheckersGame) (move : Move) (i1 j1 : Fin 8) (p : Piece)
    (h : preBoard g move i1 j1 = some p) : ∃ i0 j0 : Fin 8, g.board i0 j0 = some p := by
  unfold preBoard at h
  by_cases hcap : move.piece_captured = true
  · rw [if_neg (by simp [hcap])] at h
    exact applyCaptureHops_origin _ _ _ _ _ h
  · rw [if_pos (by simp [hcap])] at h
    rcases boardSet_some _ _ _ _ _ _ _ h with h1 | h1
    · obtain ⟨hi, hj, h2⟩ := boardAt_eq_some _ _ _ _ h1
      exact ⟨_, _, h2⟩
    rcases boardSet_some _ _ _ _ _ _ _ h1 with h2 | h2
    · cases h2
    · exact ⟨i1, j1, h2⟩

theorem update_pieces_origin (b : Board) (i j : Fin 8) (p1 : Piece)
    (h : update_pieces_board b i j = some p1) :
    ∃ p0, b i j = some p0 ∧ (p1 = p0 ∨ p1 = { p0 with is_king := true }) := by
  unfold update_pieces_board at h
  rcases hc : b i j with _ | p0 <;> rw [hc] at h
  · cases h
  · refine ⟨p0, rfl, ?_⟩
    dsimp only at h
    split_ifs at h <;> cases h
    · exact Or.inr rfl
    · exact Or.inr rfl
    · exact Or.inl rfl

theorem update_pieces_white_row7 (b : Board) (j : Fin 8) (p : Piece)
    (h : update_pieces_board b 7 j = some p) (hw : p.is_white = true) : p.is_king = true := by
  unfold update_pieces_board at h
  rcases hc : b 7 j with _ | q <;> rw [hc] at h
  · cases h
  · dsimp only at h
    split_ifs at h with h1 h2 <;> cases h
    · rfl
    · rfl
    · exact absurd ⟨hw, rfl⟩ h1

theorem update_pieces_black_row0 (b : Board) (j : Fin 8) (p : Piece)
    (h : update_pieces_board b 0 j = some p) (hw : p.is_white = false) : p.is_king = true := by
  unfold update_pieces_board at h
  rcases hc : b 0 j with _ | q <;> rw [hc] at h
  · cases h
  · dsimp only at h
    split_ifs at h with h1 h2 <;> cases h
    · exact absurd h1.2 (by decide)
    · rfl
    · exact absurd ⟨by simp [hw], rfl⟩ h2

/-- The per-cell promotion applied by `_update_pieces`: crown the piece if
it sits on its far rank, otherwise return it unchanged. -/
def kingify (i : Fin 8) (p : Piece) : Piece :=
  if p.is_white ∧ i.val = 7 then { p with is_king := true }
  else if ¬p.is_white ∧ i.val = 0 then { p with is_king := true }
  else p

/-- `kingify` only ever turns `is_king` on — never off — and changes no
other field: the new flag is the old one or-ed with the far-rank test. -/
theorem kingify_eq (i : Fin 8) (p : Piece) :
    kingify i p = { p with is_king := p.is_king ||
        (p.is_white && decide (i.val = 7) || !p.is_white && decide (i.val = 0)) } := by
  unfold kingify
  rcases p with ⟨w, k⟩
  by_cases h7 : i.val = 7 <;> by_cases h0 : i.val = 0 <;>
    cases w <;> cases k <;> simp [h7, h0]

/-- `_update_pieces` is exactly the cell-wise `kingify` sweep: it applies
`kingify` to every occupied cell and touches nothing else. -/
theorem update_pieces_eq_map (b : Board) (i j : Fin 8) :
    update_pieces_board b i j = Option.map (kingify i) (b i j) := by
  unfold update_pieces_board kingify
  rcases h : b i j with _ | p
  · rfl
  · dsimp only [Option.map]
    split_ifs <;> rfl

/-- The board transformations `make_move` performs before the promotion
sweep: a sequence of square clears and verbatim piece relocations.  No
constructor can alter a piece's fields, so in particular no step of the
relocation phase can reset an `is_king` flag. -/
inductive MovesPieces : Board → Board → Prop where
  | refl (b : Board) : MovesPieces b b
  | clear (b b2 : Board) (i j : Nat) (h : MovesPieces b b2) :
      MovesPieces b (boardSet b2 i j none)
  | move (b b2 : Board) (r0 c0 r1 c1 : Nat) (h : MovesPieces b b2) :
      MovesPieces b (boardSet (boardSet b2 r0 c0 none) r1 c1 (boardAt b2 r0 c0))

theorem applyCaptureHops_moves : ∀ (l : List Nat) (b0 b : Board),
    MovesPieces b0 b → MovesPieces b0 (applyCaptureHops b l)
  | r0 :: c0 :: r1 :: c1 :: rest, b0, b, h => by
      rw [applyCaptureHops]
      exact applyCaptureHops_moves (r1 :: c1 :: rest) b0 _
        (MovesPieces.clear _ _ _ _ (MovesPieces.move _ _ _ _ _ _ h))
  | [], _, _, h => h
  | [_], _, _, h => h
  | [_, _], _, _, h => h
  | [_, _, _], _, _, h => h

/-- Both branches of the relocation phase of `make_move` only clear
squares and move pieces verbatim. -/
theorem preBoard_moves (g : CheckersGame) (m : Move) :
    MovesPieces g.board (preBoard g m) := by
  unfold preBoard
  by_cases hcap : m.piece_captured = true
  · rw [if_neg (by simp [hcap])]
    exact applyCaptureHops_moves _ _ _ (MovesPieces.refl _)
  · rw [if_pos (by simp [hcap])]
    exact MovesPieces.move _ _ _ _ _ _ (MovesPieces.refl _)

/-- C8: immediately after `make_move` every white piece on row 7 and
every black piece on row 0 is a king; moreover the whole board update of
`make_move` factors exactly as the cell-wise `kingify` promotion sweep
applied to a relocation of the old board, where the relocation
(`MovesPieces`) only clears squares and moves pieces verbatim, and
`kingify` only ever turns `is_king` on (the old flag or-ed with the
far-rank test) and never off — so a crowned piece can never revert to a
man. -/
theorem c8_promotion (g : CheckersGame) (m : Move) :
    (∀ j : Fin 8, ∀ p, (g.make_move m).board 7 j = some p → p.is_white = true →
        p.is_king = true) ∧
    (∀ j : Fin 8, ∀ p, (g.make_move m).board 0 j = some p → p.is_white = false →
        p.is_king = true) ∧
    (∀ i j : Fin 8, (g.make_move m).board i j =
        Option.map (kingify i) (preBoard g m i j)) ∧
    MovesPieces g.board (preBoard g m) ∧
    (∀ (i : Fin 8) (p : Piece), kingify i p = { p with is_king := p.is_king ||
        (p.is_white && decide (i.val = 7) || !p.is_white && decide (i.val = 0)) }) := by
  refine ⟨?_, ?_, ?_, preBoard_moves g m, kingify_eq⟩
  · intro j p h hw
    rw [make_move_board] at h
    exact update_pieces_white_row7 _ _ _ h hw
  · intro j p h hw
    rw [make_move_board] at h
    exact update_pieces_black_row0 _ _ _ h hw
  · intro i j
    rw [make_move_board]
    exact update_pieces_eq_map _ i j

/-! ### Multi-capture chaining (claim C6) -/

theorem make_move_msc_capture (g : CheckersGame) (mv : Move)
    (h : mv.piece_captured = true) : (g.make_move mv).moves_since_cap = 0 := by
  rw [make_move_eq_outcomeStep, outcomeStep_moves_since_cap]
  show (if mv.piece_captured then (-1 : Int) else g.moves_since_cap) + 1 = 0
  rw [if_pos h]
  norm_num

/-- The four diagonal probe directions of the move generator. -/
inductive Diag where
  | tl
  | tr
  | bl
  | br
deriving DecidableEq

/-- One diagonal step from `(r, c)` in direction `δ`. -/
def diagStep : Diag → Nat → Nat → Nat × Nat
  | .tl, r, c => (r + 1, c - 1)
  | .tr, r, c => (r + 1, c + 1)
  | .bl, r, c => (r - 1, c - 1)
  | .br, r, c => (r - 1, c + 1)

/-- The landing square of a jump from `(r, c)` in direction `δ`. -/
def diagJump : Diag → Nat → Nat → Nat × Nat
  | .tl, r, c => (r + 2, c - 2)
  | .tr, r, c => (r + 2, c + 2)
  | .bl, r, c => (r - 2, c - 2)
  | .br, r, c => (r - 2, c + 2)

/-- The source's guard conditions under which the `δ`-probe reaches its
capture test from `(r, c)`: the probe's outer board-edge test together
with its bounds on the landing square. -/
def jumpGuard : Diag → Nat → Nat → Prop
  | .tl, r, c => c ≠ 0 ∧ r ≠ 7 ∧ 1 < c ∧ r < 6
  | .tr, r, c => c ≠ 7 ∧ r ≠ 7 ∧ c < 6 ∧ r < 6
  | .bl, r, c => c ≠ 0 ∧ r ≠ 0 ∧ 1 < c ∧ 1 < r
  | .br, r, c => c ≠ 7 ∧ r ≠ 0 ∧ c < 6 ∧ 1 < r

instance (δ : Diag) (r c : Nat) : Decidable (jumpGuard δ r c) := by
  cases δ <;> (unfold jumpGuard; infer_instance)

/-- The directions in which the generator probes for a piece: men probe
forward only (up the board for white, down the board for black), kings
probe all four directions.  This is the branch condition of both
`find_legal_moves` and `_check_additional_capture`. -/
def allowedDir (w k : Bool) (δ : Diag) : Prop :=
  k = true ∨ (w = true ∧ (δ = .tl ∨ δ = .tr)) ∨ (w = false ∧ (δ = .bl ∨ δ = .br))

instance (w k : Bool) (δ : Diag) : Decidable (allowedDir w k δ) := by
  unfold allowedDir; infer_instance

/-- The probe function of direction `δ`. -/
def checkOf : Diag → (CheckersGame → Nat × Nat → Nat × Nat → Piece → List Move) →
    CheckersGame → Bool → Nat × Nat → Piece → Bool → List Move
  | .tl => fun addl g white loc pu dbl => check_tl_with addl g white loc pu dbl
  | .tr => fun addl g white loc pu dbl => check_tr_with addl g white loc pu dbl
  | .bl => fun addl g white loc pu dbl => check_bl_with addl g white loc pu dbl
  | .br => fun addl g white loc pu dbl => check_br_with addl g white loc pu dbl

/-- When the top-left probe's guards hold, an enemy sits one step up-left
and the landing square two steps up-left is free, the probe returns the
jump move consed onto the chain continuation — for either side to move. -/
theorem check_tl_capture (addl : CheckersGame → Nat × Nat → Nat × Nat → Piece → List Move)
    (g : CheckersGame) (white : Bool) (loc : Nat × Nat) (p q : Piece) (dbl : Bool)
    (hg : loc.2 ≠ 0 ∧ loc.1 ≠ 7 ∧ 1 < loc.2 ∧ loc.1 < 6)
    (hq : boardAt g.board (loc.1 + 1) (loc.2 - 1) = some q)
    (hqc : q.is_white = !white)
    (hland : boardAt g.board (loc.1 + 2) (loc.2 - 2) = none) :
    check_tl_with addl g white loc p dbl =
      ⟨strNat loc.1 ++ strNat loc.2 ++ strNat (loc.1 + 2) ++ strNat (loc.2 - 2), true⟩ ::
        addl g (loc.1, loc.2) (loc.1 + 2, loc.2 - 2) p := by
  rw [check_tl_with]
  cases white
  · rw [if_neg (by rintro ⟨-, -, h⟩; cases h), if_pos ⟨hg.1, hg.2.1, rfl⟩, hq]
    dsimp only
    rw [if_pos ⟨by simp [hqc], hg.2.2.1, hg.2.2.2, hland⟩]
  · rw [if_pos ⟨hg.1, hg.2.1, rfl⟩, hq]
    dsimp only
    rw [if_pos ⟨by simp [hqc], hg.2.2.1, hg.2.2.2, hland⟩]

/-- The capture case of the top-right probe, as in `check_tl_capture`. -/
theorem check_tr_capture (addl : CheckersGame → Nat × Nat → Nat × Nat → Piece → List Move)
    (g : CheckersGame) (white : Bool) (loc : Nat × Nat) (p q : Piece) (dbl : Bool)
    (hg : loc.2 ≠ 7 ∧ loc.1 ≠ 7 ∧ loc.2 < 6 ∧ loc.1 < 6)
    (hq : boardAt g.board (loc.1 + 1) (loc.2 + 1) = some q)
    (hqc : q.is_white = !white)
    (hland : boardAt g.board (loc.1 + 2) (loc.2 + 2) = none) :
    check_tr_with addl g white loc p dbl =
      ⟨strNat loc.1 ++ strNat loc.2 ++ strNat (loc.1 + 2) ++ strNat (loc.2 + 2), true⟩ ::
        addl g (loc.1, loc.2) (loc.1 + 2, loc.2 + 2) p := by
  rw [check_tr_with]
  cases white
  · rw [if_neg (by rintro ⟨-, -, h⟩; cases h), if_pos ⟨hg.1, hg.2.1, rfl⟩, hq]
    dsimp only
    rw [if_pos ⟨by simp [hqc], hg.2.2.1, hg.2.2.2, hland⟩]
  · rw [if_pos ⟨hg.1, hg.2.1, rfl⟩, hq]
    dsimp only
    rw [if_pos ⟨by simp [hqc], hg.2.2.1, hg.2.2.2, hland⟩]

/-- The capture case of the bottom-left probe, as in `check_tl_capture`. -/
theorem check_bl_capture (addl : CheckersGame → Nat × Nat → Nat × Nat → Piece → List Move)
    (g : CheckersGame) (white : Bool) (loc : Nat × Nat) (p q : Piece) (dbl : Bool)
    (hg : loc.2 ≠ 0 ∧ loc.1 ≠ 0 ∧ 1 < loc.2 ∧ 1 < loc.1)
    (hq : boardAt g.board (loc.1 - 1) (loc.2 - 1) = some q)
    (hqc : q.is_white = !white)
    (hland : boardAt g.board (loc.1 - 2) (loc.2 - 2) = none) :
    check_bl_with addl g white loc p dbl =
      ⟨strNat loc.1 ++ strNat loc.2 ++ strNat (loc.1 - 2) ++ strNat (loc.2 - 2), true⟩ ::
        addl g (loc.1, loc.2) (loc.1 - 2, loc.2 - 2) p := by
  rw [check_bl_with]
  cases white
  · rw [if_neg (by rintro ⟨-, -, h⟩; cases h), if_pos ⟨hg.1, hg.2.1, rfl⟩, hq]
    dsimp only
    rw [if_pos ⟨by simp [hqc], hg.2.2.1, hg.2.2.2, hland⟩]
  · rw [if_pos ⟨hg.1, hg.2.1, rfl⟩, hq]
    dsimp only
    rw [if_pos ⟨by simp [hqc], hg.2.2.1, hg.2.2.2, hland⟩]

/-- The capture case of the bottom-right probe, as in `check_tl_capture`. -/
theorem check_br_capture (addl : CheckersGame → Nat × Nat → Nat × Nat → Piece → List Move)
    (g : CheckersGame) (white : Bool) (loc : Nat × Nat) (p q : Piece) (dbl : Bool)
    (hg : loc.2 ≠ 7 ∧ loc.1 ≠ 0 ∧ loc.2 < 6 ∧ 1 < loc.1)
    (hq : boardAt g.board (loc.1 - 1) (loc.2 + 1) = some q)
    (hqc : q.is_white = !white)
    (hland : boardAt g.board (loc.1 - 2) (loc.2 + 2) = none) :
    check_br_with addl g white loc p dbl =
      ⟨strNat loc.1 ++ strNat loc.2 ++ strNat (loc.1 - 2) ++ strNat (loc.2 + 2), true⟩ ::
        addl g (loc.1, loc.2) (loc.1 - 2, loc.2 + 2) p := by
  rw [check_br_with]
  cases white
  · rw [if_neg (by rintro ⟨-, -, h⟩; cases h), if_pos ⟨hg.1, hg.2.1, rfl⟩, hq]
    dsimp only
    rw [if_pos ⟨by simp [hqc], hg.2.2.1, hg.2.2.2, hland⟩]
  · rw [if_pos ⟨hg.1, hg.2.1, rfl⟩, hq]
    dsimp only
    rw [if_pos ⟨by simp [hqc], hg.2.2.1, hg.2.2.2, hland⟩]

theorem diag_mid (δ : Diag) (r c : Nat) (hg : jumpGuard δ r c) :
    (r + (diagJump δ r c).1) / 2 = (diagStep δ r c).1 ∧
    (c + (diagJump δ r c).2) / 2 = (diagStep δ r c).2 := by
  cases δ <;>
    (unfold jumpGuard at hg; dsimp only [diagStep, diagJump]; exact ⟨by omega, by omega⟩)

theorem diagJump_lt (δ : Diag) (r c : Nat) (hr : r < 8) (hc : c < 8)
    (hg : jumpGuard δ r c) :
    (diagJump δ r c).1 < 8 ∧ (diagJump δ r c).2 < 8 := by
  cases δ <;>
    (unfold jumpGuard at hg; dsimp only [diagJump]; exact ⟨by omega, by omega⟩)

/-- The square jumped by the second hop differs from the square jumped by
the first hop, except when the second hop would land back on the origin
(the reversed direction). -/
theorem diag_second_step_ne (δ1 δ2 : Diag) (r c : Nat)
    (hg1 : jumpGuard δ1 r c)
    (hg2 : jumpGuard δ2 (diagJump δ1 r c).1 (diagJump δ1 r c).2)
    (hS : ¬((diagJump δ2 (diagJump δ1 r c).1 (diagJump δ1 r c).2).1 = r ∧
        (diagJump δ2 (diagJump δ1 r c).1 (diagJump δ1 r c).2).2 = c)) :
    (diagStep δ2 (diagJump δ1 r c).1 (diagJump δ1 r c).2).1 ≠ (diagStep δ1 r c).1 ∨
    (diagStep δ2 (diagJump δ1 r c).1 (diagJump δ1 r c).2).2 ≠ (diagStep δ1 r c).2 := by
  cases δ1 <;> cases δ2 <;>
    (unfold jumpGuard at hg1 hg2; dsimp only [diagStep, diagJump] at hg2 hS ⊢; omega)

/-- The landing square of the second hop never coincides with the square
jumped by the first hop (their offsets from the first landing square have
different parities). -/
theorem diag_jump_ne_mid (δ1 δ2 : Diag) (r c : Nat)
    (hg1 : jumpGuard δ1 r c)
    (hg2 : jumpGuard δ2 (diagJump δ1 r c).1 (diagJump δ1 r c).2) :
    (diagJump δ2 (diagJump δ1 r c).1 (diagJump δ1 r c).2).1 ≠ (diagStep δ1 r c).1 ∨
    (diagJump δ2 (diagJump δ1 r c).1 (diagJump δ1 r c).2).2 ≠ (diagStep δ1 r c).2 := by
  cases δ1 <;> cases δ2 <;>
    (unfold jumpGuard at hg1 hg2; dsimp only [diagStep, diagJump] at hg2 ⊢; omega)

/-- The flat list of directional probe results `find_legal_moves` unions
before the capture filter (black to move). -/
theorem find_legal_moves_black_normal (g : CheckersGame) (hw : g.is_white_move = false) :
    ∃ normal : List Move,
      normal = (g.return_all_pieces_location "black").flatMap (fun pi =>
        g.check_bl g.is_white_move pi.1 pi.2 ++ (g.check_br g.is_white_move pi.1 pi.2 ++
          (if pi.2.is_king then
            g.check_tl g.is_white_move pi.1 pi.2 ++ g.check_tr g.is_white_move pi.1 pi.2
          else []))) ∧
      g.find_legal_moves =
        (if normal.filter (fun m => m.piece_captured) ≠ [] then
          normal.filter (fun m => m.piece_captured) else normal) := by
  refine ⟨_, rfl, ?_⟩
  unfold CheckersGame.find_legal_moves
  rw [if_neg (show ¬g.is_white_move = true by simp [hw])]
  have hfold : (g.return_all_pieces_location "black").foldl (fun acc pi =>
      let acc1 := acc ++ g.check_bl g.is_white_move pi.1 pi.2
      let acc2 := acc1 ++ g.check_br g.is_white_move pi.1 pi.2
      if pi.2.is_king then
        (acc2 ++ g.check_tl g.is_white_move pi.1 pi.2) ++ g.check_tr g.is_white_move pi.1 pi.2
      else acc2) [] =
      (g.return_all_pieces_location "black").flatMap (fun pi =>
        g.check_bl g.is_white_move pi.1 pi.2 ++ (g.check_br g.is_white_move pi.1 pi.2 ++
          (if pi.2.is_king then
            g.check_tl g.is_white_move pi.1 pi.2 ++ g.check_tr g.is_white_move pi.1 pi.2
          else []))) := by
    refine (foldl_extend_eq _ (fun pi =>
      g.check_bl g.is_white_move pi.1 pi.2 ++ (g.check_br g.is_white_move pi.1 pi.2 ++
        (if pi.2.is_king then
          g.check_tl g.is_white_move pi.1 pi.2 ++ g.check_tr g.is_white_move pi.1 pi.2
        else []))) ?_ _ []).trans (by simp)
    intro acc pi
    by_cases hk : pi.2.is_king <;> simp [hk, List.append_assoc]
  rw [hfold]

/-- Position a probe hit inside the per-piece concatenation that
`find_legal_moves` builds when white is to move. -/
theorem mem_white_piece_concat (g : CheckersGame) (loc : Nat × Nat) (p : Piece) (δ : Diag)
    (mv : Move) (hw : g.is_white_move = true)
    (hd : allowedDir g.is_white_move p.is_king δ)
    (hmem : mv ∈ checkOf δ (check_additional_fuel GAMEFUEL) g g.is_white_move loc p false) :
    mv ∈ g.check_tl g.is_white_move loc p ++ (g.check_tr g.is_white_move loc p ++
      (if p.is_king then
        g.check_bl g.is_white_move loc p ++ g.check_br g.is_white_move loc p
      else [])) := by
  unfold allowedDir at hd
  cases δ with
  | tl => exact List.mem_append_left _ hmem
  | tr => exact List.mem_append_right _ (List.mem_append_left _ hmem)
  | bl =>
      have hk : p.is_king = true := by
        rcases hd with hk | ⟨-, h | h⟩ | ⟨hf, -⟩
        · exact hk
        · cases h
        · cases h
        · rw [hw] at hf; cases hf
      rw [if_pos hk]
      exact List.mem_append_right _ (List.mem_append_right _ (List.mem_append_left _ hmem))
  | br =>
      have hk : p.is_king = true := by
        rcases hd with hk | ⟨-, h | h⟩ | ⟨hf, -⟩
        · exact hk
        · cases h
        · cases h
        · rw [hw] at hf; cases hf
      rw [if_pos hk]
      exact List.mem_append_right _ (List.mem_append_right _ (List.mem_append_right _ hmem))

/-- Position a probe hit inside the per-piece concatenation that
`find_legal_moves` builds when black is to move. -/
theorem mem_black_piece_concat (g : CheckersGame) (loc : Nat × Nat) (p : Piece) (δ : Diag)
    (mv : Move) (hw : g.is_white_move = false)
    (hd : allowedDir g.is_white_move p.is_king δ)
    (hmem : mv ∈ checkOf δ (check_additional_fuel GAMEFUEL) g g.is_white_move loc p false) :
    mv ∈ g.check_bl g.is_white_move loc p ++ (g.check_br g.is_white_move loc p ++
      (if p.is_king then
        g.check_tl g.is_white_move loc p ++ g.check_tr g.is_white_move loc p
      else [])) := by
  unfold allowedDir at hd
  cases δ with
  | bl => exact List.mem_append_left _ hmem
  | br => exact List.mem_append_right _ (List.mem_append_left _ hmem)
  | tl =>
      have hk : p.is_king = true := by
        rcases hd with hk | ⟨hf, -⟩ | ⟨-, h | h⟩
        · exact hk
        · rw [hw] at hf; cases hf
        · cases h
        · cases h
      rw [if_pos hk]
      exact List.mem_append_right _ (List.mem_append_right _ (List.mem_append_left _ hmem))
  | tr =>
      have hk : p.is_king = true := by
        rcases hd with hk | ⟨hf, -⟩ | ⟨-, h | h⟩
        · exact hk
        · rw [hw] at hf; cases hf
        · cases h
        · cases h
      rw [if_pos hk]
      exact List.mem_append_right _ (List.mem_append_right _ (List.mem_append_right _ hmem))

/-- Inside the chain-continuation probe `_check_additional_capture` — whose
test board is the board with the just-jumped square cleared — every
direction the moved piece is allowed to probe that has a capturable enemy
next to the landing square contributes the corresponding chained move. -/
theorem mem_check_additional_succ (fuel : Nat) (g : CheckersGame) (o1 o2 : Nat)
    (l1 m1 : Nat × Nat) (p q2 : Piece) (δ2 : Diag)
    (hm1 : (o1 + l1.1) / 2 = m1.1) (hm2 : (o2 + l1.2) / 2 = m1.2)
    (hd2 : allowedDir g.is_white_move p.is_king δ2)
    (hg2 : jumpGuard δ2 l1.1 l1.2)
    (hq2 : boardAt (boardSet g.board m1.1 m1.2 none) (diagStep δ2 l1.1 l1.2).1
        (diagStep δ2 l1.1 l1.2).2 = some q2)
    (hq2c : q2.is_white = !g.is_white_move)
    (hland2 : boardAt (boardSet g.board m1.1 m1.2 none) (diagJump δ2 l1.1 l1.2).1
        (diagJump δ2 l1.1 l1.2).2 = none) :
    Move.mk (strNat o1 ++ strNat o2 ++ strNat l1.1 ++ strNat l1.2 ++
        strNat (diagJump δ2 l1.1 l1.2).1 ++ strNat (diagJump δ2 l1.1 l1.2).2) true
      ∈ check_additional_fuel (fuel + 1) g (o1, o2) l1 p := by
  rw [check_additional_fuel]
  simp only [CheckersGame.make_copy_game]
  rw [hm1, hm2]
  set tg : CheckersGame :=
    { board := boardSet g.board m1.1 m1.2 none,
      is_white_move := g.is_white_move, gamestate := "MENU", white_win := true,
      player_turn := true, moves_since_cap := 0, is_draw := false,
      main_game := false } with htg
  have htgb : boardAt tg.board (diagStep δ2 l1.1 l1.2).1 (diagStep δ2 l1.1 l1.2).2 =
      some q2 := hq2
  have htgl : boardAt tg.board (diagJump δ2 l1.1 l1.2).1 (diagJump δ2 l1.1 l1.2).2 =
      none := hland2
  refine List.mem_map.mpr ⟨Move.mk (strNat l1.1 ++ strNat l1.2 ++
      strNat (diagJump δ2 l1.1 l1.2).1 ++ strNat (diagJump δ2 l1.1 l1.2).2) true, ?_, ?_⟩
  · by_cases hk : p.is_king = true
    · rw [if_neg (by simp [hk]), if_neg (by simp [hk])]
      cases δ2 with
      | tl =>
          rw [check_tl_capture (check_additional_fuel fuel) tg g.is_white_move l1 p q2 true
              hg2 htgb hq2c htgl]
          exact List.mem_append_left _ (List.mem_append_left _ (List.mem_append_left _
            (List.mem_cons_self _ _)))
      | tr =>
          rw [check_tr_capture (check_additional_fuel fuel) tg g.is_white_move l1 p q2 true
              hg2 htgb hq2c htgl]
          exact List.mem_append_left _ (List.mem_append_left _ (List.mem_append_right _
            (List.mem_cons_self _ _)))
      | bl =>
          rw [check_bl_capture (check_additional_fuel fuel) tg g.is_white_move l1 p q2 true
              hg2 htgb hq2c htgl]
          exact List.mem_append_left _ (List.mem_append_right _ (List.mem_cons_self _ _))
      | br =>
          rw [check_br_capture (check_additional_fuel fuel) tg g.is_white_move l1 p q2 true
              hg2 htgb hq2c htgl]
          exact List.mem_append_right _ (List.mem_cons_self _ _)
    · simp only [Bool.not_eq_true] at hk
      unfold allowedDir at hd2
      by_cases hwm : g.is_white_move = true
      · rw [if_pos ⟨by simp [hwm], by simp [hk]⟩]
        rcases hd2 with hkk | ⟨-, rfl | rfl⟩ | ⟨hf, -⟩
        · rw [hk] at hkk; cases hkk
        · rw [check_tl_capture (check_additional_fuel fuel) tg g.is_white_move l1 p q2 true
              hg2 htgb hq2c htgl]
          exact List.mem_append_left _ (List.mem_cons_self _ _)
        · rw [check_tr_capture (check_additional_fuel fuel) tg g.is_white_move l1 p q2 true
              hg2 htgb hq2c htgl]
          exact List.mem_append_right _ (List.mem_cons_self _ _)
        · rw [hwm] at hf; cases hf
      · have hwf : g.is_white_move = false := by
          revert hwm; cases g.is_white_move <;> simp
        rw [if_neg (by simp [hwf]), if_pos ⟨by simp [hwf], by simp [hk]⟩]
        rcases hd2 with hkk | ⟨hf, -⟩ | ⟨-, rfl | rfl⟩
        · rw [hk] at hkk; cases hkk
        · rw [hwf] at hf; cases hf
        · rw [check_bl_capture (check_additional_fuel fuel) tg g.is_white_move l1 p q2 true
              hg2 htgb hq2c htgl]
          exact List.mem_append_left _ (List.mem_cons_self _ _)
        · rw [check_br_capture (check_additional_fuel fuel) tg g.is_white_move l1 p q2 true
              hg2 htgb hq2c htgl]
          exact List.mem_append_right _ (List.mem_cons_self _ _)
  · simp [List.append_assoc]

/-- C6: whenever the side to move has a piece that can jump an enemy in
any direction it is allowed to probe, and from the landing square can
jump a second enemy in any allowed direction, `find_legal_moves`
contains the single `Move` whose digit string chains origin, first
landing and second landing with the captured flag set; and applying any
capture move through `make_move` leaves the no-capture counter at
exactly 0.  Men of both colours and kings are covered, in every
direction combination. -/
theorem c6_multi_capture (g : CheckersGame) (r c : Nat) (p q1 q2 : Piece) (δ1 δ2 : Diag)
    (hp : boardAt g.board r c = some p)
    (hside : p.is_white = g.is_white_move)
    (hd1 : allowedDir g.is_white_move p.is_king δ1)
    (hd2 : allowedDir g.is_white_move p.is_king δ2)
    (hg1 : jumpGuard δ1 r c)
    (hq1 : boardAt g.board (diagStep δ1 r c).1 (diagStep δ1 r c).2 = some q1)
    (hq1c : q1.is_white = !g.is_white_move)
    (hland1 : boardAt g.board (diagJump δ1 r c).1 (diagJump δ1 r c).2 = none)
    (hg2 : jumpGuard δ2 (diagJump δ1 r c).1 (diagJump δ1 r c).2)
    (hq2 : boardAt g.board (diagStep δ2 (diagJump δ1 r c).1 (diagJump δ1 r c).2).1
        (diagStep δ2 (diagJump δ1 r c).1 (diagJump δ1 r c).2).2 = some q2)
    (hq2c : q2.is_white = !g.is_white_move)
    (hland2 : boardAt g.board (diagJump δ2 (diagJump δ1 r c).1 (diagJump δ1 r c).2).1
        (diagJump δ2 (diagJump δ1 r c).1 (diagJump δ1 r c).2).2 = none) :
    Move.mk (strNat r ++ strNat c ++
        strNat (diagJump δ1 r c).1 ++ strNat (diagJump δ1 r c).2 ++
        strNat (diagJump δ2 (diagJump δ1 r c).1 (diagJump δ1 r c).2).1 ++
        strNat (diagJump δ2 (diagJump δ1 r c).1 (diagJump δ1 r c).2).2) true
      ∈ g.find_legal_moves ∧
    (∀ (g2 : CheckersGame) (mv : Move), mv.piece_captured = true →
      (g2.make_move mv).moves_since_cap = 0) := by
  obtain ⟨hr8, hc8, -⟩ := boardAt_eq_some _ _ _ _ hp
  obtain ⟨hm1, hm2⟩ := diag_mid δ1 r c hg1
  obtain ⟨hs1lt, hs2lt, -⟩ := boardAt_eq_some _ _ _ _ hq2
  obtain ⟨hl1lt, hl2lt⟩ := diagJump_lt δ1 r c hr8 hc8 hg1
  obtain ⟨hj1lt, hj2lt⟩ :=
    diagJump_lt δ2 (diagJump δ1 r c).1 (diagJump δ1 r c).2 hl1lt hl2lt hg2
  have hS : ¬((diagJump δ2 (diagJump δ1 r c).1 (diagJump δ1 r c).2).1 = r ∧
      (diagJump δ2 (diagJump δ1 r c).1 (diagJump δ1 r c).2).2 = c) := by
    rintro ⟨h1, h2⟩
    rw [h1, h2, hp] at hland2
    cases hland2
  have hsne := diag_second_step_ne δ1 δ2 r c hg1 hg2 hS
  have hjne := diag_jump_ne_mid δ1 δ2 r c hg1 hg2
  have hq2' : boardAt (boardSet g.board (diagStep δ1 r c).1 (diagStep δ1 r c).2 none)
      (diagStep δ2 (diagJump δ1 r c).1 (diagJump δ1 r c).2).1
      (diagStep δ2 (diagJump δ1 r c).1 (diagJump δ1 r c).2).2 = some q2 := by
    rw [boardAt_boardSet_ne _ _ _ _ _ _ hs1lt hs2lt hsne]
    exact hq2
  have hland2' : boardAt (boardSet g.board (diagStep δ1 r c).1 (diagStep δ1 r c).2 none)
      (diagJump δ2 (diagJump δ1 r c).1 (diagJump δ1 r c).2).1
      (diagJump δ2 (diagJump δ1 r c).1 (diagJump δ1 r c).2).2 = none := by
    rw [boardAt_boardSet_ne _ _ _ _ _ _ hj1lt hj2lt hjne]
    exact hland2
  have hcont := mem_check_additional_succ 69 g r c (diagJump δ1 r c) (diagStep δ1 r c)
    p q2 δ2 hm1 hm2 hd2 hg2 hq2' hq2c hland2'
  rw [show (69 : Nat) + 1 = GAMEFUEL from rfl] at hcont
  have hmemprobe : Move.mk (strNat r ++ strNat c ++
      strNat (diagJump δ1 r c).1 ++ strNat (diagJump δ1 r c).2 ++
      strNat (diagJump δ2 (diagJump δ1 r c).1 (diagJump δ1 r c).2).1 ++
      strNat (diagJump δ2 (diagJump δ1 r c).1 (diagJump δ1 r c).2).2) true
      ∈ checkOf δ1 (check_additional_fuel GAMEFUEL) g g.is_white_move (r, c) p false := by
    cases δ1 with
    | tl =>
        dsimp only [checkOf]
        rw [check_tl_capture (check_additional_fuel GAMEFUEL) g g.is_white_move (r, c) p q1
            false hg1 hq1 hq1c hland1]
        exact List.mem_cons_of_mem _ hcont
    | tr =>
        dsimp only [checkOf]
        rw [check_tr_capture (check_additional_fuel GAMEFUEL) g g.is_white_move (r, c) p q1
            false hg1 hq1 hq1c hland1]
        exact List.mem_cons_of_mem _ hcont
    | bl =>
        dsimp only [checkOf]
        rw [check_bl_capture (check_additional_fuel GAMEFUEL) g g.is_white_move (r, c) p q1
            false hg1 hq1 hq1c hland1]
        exact List.mem_cons_of_mem _ hcont
    | br =>
        dsimp only [checkOf]
        rw [check_br_capture (check_additional_fuel GAMEFUEL) g g.is_white_move (r, c) p q1
            false hg1 hq1 hq1c hland1]
        exact List.mem_cons_of_mem _ hcont
  refine ⟨?_, fun g2 mv h => make_move_msc_capture g2 mv h⟩
  by_cases hw : g.is_white_move = true
  · obtain ⟨normal, hnormal, hresult⟩ := find_legal_moves_white_normal g hw
    have hpw : p.is_white = true := by rw [hside, hw]
    have hin : Move.mk (strNat r ++ strNat c ++
        strNat (diagJump δ1 r c).1 ++ strNat (diagJump δ1 r c).2 ++
        strNat (diagJump δ2 (diagJump δ1 r c).1 (diagJump δ1 r c).2).1 ++
        strNat (diagJump δ2 (diagJump δ1 r c).1 (diagJump δ1 r c).2).2) true ∈ normal := by
      rw [hnormal]
      exact List.mem_flatMap.mpr ⟨((r, c), p),
        (mem_return_all_pieces_white g r c p).mpr ⟨hr8, hc8, hp, hpw⟩,
        mem_white_piece_concat g (r, c) p δ1 _ hw hd1 hmemprobe⟩
    rw [hresult]
    have hfilter : Move.mk (strNat r ++ strNat c ++
        strNat (diagJump δ1 r c).1 ++ strNat (diagJump δ1 r c).2 ++
        strNat (diagJump δ2 (diagJump δ1 r c).1 (diagJump δ1 r c).2).1 ++
        strNat (diagJump δ2 (diagJump δ1 r c).1 (diagJump δ1 r c).2).2) true
        ∈ normal.filter (fun m => m.piece_captured) :=
      List.mem_filter.mpr ⟨hin, rfl⟩
    rw [if_pos (by exact List.ne_nil_of_mem hfilter)]
    exact hfilter
  · have hwf : g.is_white_move = false := by
      revert hw; cases g.is_white_move <;> simp
    obtain ⟨normal, hnormal, hresult⟩ := find_legal_moves_black_normal g hwf
    have hpw : p.is_white = false := by rw [hside, hwf]
    have hin : Move.mk (strNat r ++ strNat c ++
        strNat (diagJump δ1 r c).1 ++ strNat (diagJump δ1 r c).2 ++
        strNat (diagJump δ2 (diagJump δ1 r c).1 (diagJump δ1 r c).2).1 ++
        strNat (diagJump δ2 (diagJump δ1 r c).1 (diagJump δ1 r c).2).2) true ∈ normal := by
      rw [hnormal]
      exact List.mem_flatMap.mpr ⟨((r, c), p),
        (mem_return_all_pieces_black g r c p).mpr ⟨hr8, hc8, hp, hpw⟩,
        mem_black_piece_concat g (r, c) p δ1 _ hwf hd1 hmemprobe⟩
    rw [hresult]
    have hfilter : Move.mk (strNat r ++ strNat c ++
        strNat (diagJump δ1 r c).1 ++ strNat (diagJump δ1 r c).2 ++
        strNat (diagJump δ2 (diagJump δ1 r c).1 (diagJump δ1 r c).2).1 ++
        strNat (diagJump δ2 (diagJump δ1 r c).1 (diagJump δ1 r c).2).2) true
        ∈ normal.filter (fun m => m.piece_captured) :=
      List.mem_filter.mpr ⟨hin, rfl⟩
    rw [if_pos (by exact List.ne_nil_of_mem hfilter)]
    exact hfilter

/-! ### Claim C2: per-piece move generation is *not* filtered against the
full legal-move set -/

/-- A position where the white man on (2,1) has a mandatory capture while
the white man on (0,0) has only a simple move. -/
def c2Board : Board := boardOfList
  [[some (mkPiece true), none, none, none, none, none, none, none],
   [none, none, none, none, none, none, none, none],
   [none, some (mkPiece true), none, none, none, none, none, none],
   [none, none, some (mkPiece false), none, none, none, none, none],
   [none, none, none, none, none, none, none, none],
   [none, none, none, none, none, none, none, none],
   [none, none, none, none, none, none, none, none],
   [none, none, none, none, none, none, none, none]]

def c2Game : CheckersGame := newCheckersGame true (some c2Board) "GAME"

/-- C2 counterexample: another piece (the man on (2,1)) has a capture
available, yet `find_legal_moves_one_piece` on the man on (0,0), which has
only simple moves, returns its simple move rather than the empty list. -/
theorem c2_counterexample :
    (∃ mv ∈ c2Game.find_legal_moves, mv.piece_captured = true) ∧
    (∀ mv ∈ c2Game.find_legal_moves_one_piece ((0, 0), mkPiece true),
      mv.piece_captured = false) ∧
    c2Game.find_legal_moves_one_piece ((0, 0), mkPiece true) ≠ [] := by decide

/-- C2 (amended): `find_legal_moves_one_piece` applies the
collect-then-filter-to-captures pass to the given piece's own moves only:
whenever any of the piece's own moves is a capture, only captures are
returned (but a piece whose own moves are all simple keeps them even when
another piece has a capture, per the counterexample). -/
theorem c2_one_piece_local_filter (g : CheckersGame) (piece_info : (Nat × Nat) × Piece)
    (h : ∃ mv ∈ g.find_legal_moves_one_piece piece_info, mv.piece_captured = true) :
    ∀ mv ∈ g.find_legal_moves_one_piece piece_info, mv.piece_captured = true := by
  unfold CheckersGame.find_legal_moves_one_piece at *
  exact mandatory_filter_aux _ h

/-- Witness for the amended C2 theorem at a concrete input. -/
theorem c2_one_piece_local_filter_witness :
    (∃ mv ∈ c2Game.find_legal_moves_one_piece ((2, 1), mkPiece true),
      mv.piece_captured = true) ∧
    (∀ mv ∈ c2Game.find_legal_moves_one_piece ((2, 1), mkPiece true),
      mv.piece_captured = true) :=
  ⟨by decide, c2_one_piece_local_filter c2Game ((2, 1), mkPiece true) (by decide)⟩

/-! ### Concrete games for witnesses, and the codec failure (claim C1) -/

/-- A two-node tree: root move "2231" with a single leaf child "3140". -/
def c1Tree : CheckersGameTree :=
  .mk (Move.mk ['2', '2', '3', '1'] false) true
    [.mk (Move.mk ['3', '1', '4', '0'] false) true []]

/-- C1: the codec does not round-trip.  Exporting the two-node tree
writes the pre-order lines `223101,1` and `314001,0`, but `import_tree`
reverses the lines before compiling, so the node it takes as the root is
the *last* serialized line: the result is the single leaf "3140", not a
tree isomorphic to the original (root "2231" with one child). -/
theorem c1_roundtrip_fails :
    export_tree c1Tree =
      [(['2', '2', '3', '1', '0', '1'], 1), (['3', '1', '4', '0', '0', '1'], 0)] ∧
    (import_tree (export_tree c1Tree)).move.move = ['3', '1', '4', '0'] ∧
    (import_tree (export_tree c1Tree)).subtrees.length = 0 ∧
    c1Tree.move.move = ['2', '2', '3', '1'] ∧
    c1Tree.subtrees.length = 1 := by decide

/-- A white man on (0,4) with two capturable black men in line to its top
left. -/
def c6Board : Board := boardOfList
  [[none, none, none, none, some (mkPiece true), none, none, none],
   [none, none, none, some (mkPiece false), none, none, none, none],
   [none, none, none, none, none, none, none, none],
   [none, some (mkPiece false), none, none, none, none, none, none],
   [none, none, none, none, none, none, none, none],
   [none, none, none, none, none, none, none, none],
   [none, none, none, none, none, none, none, none],
   [none, none, none, none, none, none, none, none]]

def c6Game : CheckersGame := newCheckersGame true (some c6Board) "GAME"

/-- A lone white man about to promote on (7,0). -/
def c8Board : Board := boardOfList
  [[none, none, none, none, none, none, none, none],
   [none, none, none, none, none, none, none, none],
   [none, none, none, none, none, none, none, none],
   [none, none, none, none, none, none, none, none],
   [none, none, none, none, none, none, none, none],
   [none, none, none, none, none, none, none, none],
   [none, some (mkPiece true), none, none, none, none, none, none],
   [none, none, none, none, none, none, none, none]]

def c8Game : CheckersGame := newCheckersGame true (some c8Board) "GAME"

/-- Witness for C5 at a concrete input. -/
theorem c5_mandatory_capture_witness :
    (∃ mv ∈ c2Game.find_legal_moves, mv.piece_captured = true) ∧
    (∀ mv ∈ c2Game.find_legal_moves, mv.piece_captured = true) :=
  ⟨by decide, c5_mandatory_capture c2Game (by decide)⟩

/-- Witness for C4 at a concrete input: after white's opening move the
game continues and the outcome fields are untouched. -/
theorem c4_make_move_terminal_witness :
    newCheckersGame.main_game = true ∧
    (newCheckersGame.make_move (Move.mk ['2', '0', '3', '1'] false)).find_legal_moves ≠ [] ∧
    (newCheckersGame.make_move (Move.mk ['2', '0', '3', '1'] false)).moves_since_cap < 50 ∧
    ((newCheckersGame.make_move (Move.mk ['2', '0', '3', '1'] false)).gamestate =
        newCheckersGame.gamestate ∧
      (newCheckersGame.make_move (Move.mk ['2', '0', '3', '1'] false)).white_win =
        newCheckersGame.white_win ∧
      (newCheckersGame.make_move (Move.mk ['2', '0', '3', '1'] false)).is_draw =
        newCheckersGame.is_draw) :=
  ⟨by decide, by decide, by decide,
    ((c4_make_move_terminal newCheckersGame (Move.mk ['2', '0', '3', '1'] false)).1
      (by decide)).2.2 (by decide) (by decide)⟩

/-- Witness for C6 at a concrete input: the chained capture
`(0,4) → (2,2) → (4,0)` is produced as the single move "042240". -/
theorem c6_multi_capture_witness :
    boardAt c6Game.board 0 4 = some (mkPiece true) ∧
    Move.mk (strNat 0 ++ strNat 4 ++ strNat 2 ++ strNat 2 ++ strNat 4 ++ strNat 0) true
      ∈ c6Game.find_legal_moves ∧
    (c6Game.make_move (Move.mk ['0', '4', '2', '2', '4', '0'] true)).moves_since_cap = 0 :=
  ⟨by decide,
    (c6_multi_capture c6Game 0 4 (mkPiece true) (mkPiece false) (mkPiece false)
      Diag.tl Diag.tl
      (by decide) (by decide) (by decide) (by decide) (by decide) (by decide)
      (by decide) (by decide) (by decide) (by decide) (by decide) (by decide)).1,
    (c6_multi_capture c6Game 0 4 (mkPiece true) (mkPiece false) (mkPiece false)
      Diag.tl Diag.tl
      (by decide) (by decide) (by decide) (by decide) (by decide) (by decide)
      (by decide) (by decide) (by decide) (by decide) (by decide) (by decide)).2
      c6Game (Move.mk ['0', '4', '2', '2', '4', '0'] true) (by decide)⟩

/-- Witness for C8 at a concrete input: the white man moved to (7,0) is a
king immediately after `make_move`. -/
theorem c8_promotion_witness :
    (c8Game.make_move (Move.mk ['6', '1', '7', '0'] false)).board 7 0 =
      some ⟨true, true⟩ ∧
    (⟨true, true⟩ : Piece).is_king = true :=
  ⟨by decide,
    (c8_promotion c8Game (Move.mk ['6', '1', '7', '0'] false)).1 0 ⟨true, true⟩
      (by decide) (by decide)⟩

/-! ### Claim C9: `find_legal_moves` never mutates the game

The Python method's call graph contains exactly two kinds of assignment:
writes into `test_game` (the deep copy built by
`_check_additional_capture`) and writes into freshly constructed `Move`
objects; no statement assigns into `self`.  To state that as a theorem,
the scan below threads the game through every loop step exactly as the
method runs, and the claim is that the threaded state comes back equal to
the input and the move list equal to `find_legal_moves`. -/

theorem foldl_thread {α β γ : Type} (f : List β → γ → α → List β) (g : γ) :
    ∀ (l : List α) (init : List β),
      (l.foldl (fun st pi => (f st.1 st.2 pi, st.2)) (init, g)) =
        (l.foldl (fun acc pi => f acc g pi) init, g) := by
  intro l
  induction l with
  | nil => intro init; rfl
  | cons x xs ih => intro init; exact ih (f init g x)

/-- One step of the white scan: the probes run on the current state. -/
def whiteScanStep (acc0 : List Move) (g2 : CheckersGame) (pi : (Nat × Nat) × Piece) :
    List Move :=
  let acc := acc0 ++ g2.check_tl g2.is_white_move pi.1 pi.2
  let acc := acc ++ g2.check_tr g2.is_white_move pi.1 pi.2
  if pi.2.is_king then
    (acc ++ g2.check_bl g2.is_white_move pi.1 pi.2) ++ g2.check_br g2.is_white_move pi.1 pi.2
  else acc

/-- One step of the black scan. -/
def blackScanStep (acc0 : List Move) (g2 : CheckersGame) (pi : (Nat × Nat) × Piece) :
    List Move :=
  let acc := acc0 ++ g2.check_bl g2.is_white_move pi.1 pi.2
  let acc := acc ++ g2.check_br g2.is_white_move pi.1 pi.2
  if pi.2.is_king then
    (acc ++ g2.check_tl g2.is_white_move pi.1 pi.2) ++ g2.check_tr g2.is_white_move pi.1 pi.2
  else acc

/-- `find_legal_moves` with the game state threaded through each probe. -/
def CheckersGame.find_legal_moves_state (g : CheckersGame) : List Move × CheckersGame :=
  let scan :=
    if g.is_white_move then
      (g.return_all_pieces_location "white").foldl
        (fun st pi => (whiteScanStep st.1 st.2 pi, st.2)) ([], g)
    else
      (g.return_all_pieces_location "black").foldl
        (fun st pi => (blackScanStep st.1 st.2 pi, st.2)) ([], g)
  let capture_moves := scan.1.filter (fun m => m.piece_captured)
  (if capture_moves ≠ [] then capture_moves else scan.1, scan.2)

/-- C9: the legal-move scan leaves the game unchanged — the final state
equals the input in every field — and returns `find_legal_moves`. -/
theorem c9_find_legal_moves_pure (g : CheckersGame) :
    g.find_legal_moves_state = (g.find_legal_moves, g) ∧
    (g.find_legal_moves_state).2.board = g.board ∧
    (g.find_legal_moves_state).2.is_white_move = g.is_white_move ∧
    (g.find_legal_moves_state).2.moves_since_cap = g.moves_since_cap ∧
    (g.find_legal_moves_state).2.gamestate = g.gamestate ∧
    (g.find_legal_moves_state).2.white_win = g.white_win ∧
    (g.find_legal_moves_state).2.is_draw = g.is_draw := by
  have hmain : g.find_legal_moves_state = (g.find_legal_moves, g) := by
    unfold CheckersGame.find_legal_moves_state CheckersGame.find_legal_moves
    by_cases hwm : g.is_white_move = true
    · rw [if_pos hwm, if_pos hwm, foldl_thread whiteScanStep g]; rfl
    · rw [if_neg hwm, if_neg hwm, foldl_thread blackScanStep g]; rfl
  exact ⟨hmain, by rw [hmain], by rw [hmain], by rw [hmain], by rw [hmain],
    by rw [hmain], by rw [hmain]⟩

/-! ### Claim C10: the default board is aliased, not copied -/

/-- C10: two games constructed with no board argument share the
module-level default board object: a `make_move` through one is observed
through the other (their dereferenced boards stay equal, and equal the
value-semantics result), and after white's opening move a freshly
constructed `CheckersGame()` no longer starts from the pristine
12-versus-12 setup. -/
theorem c10_default_board_aliasing :
    (∀ m : Move,
      readBoard (pyMakeMove DEFAULT_BOARD_SETUP pyNewCheckersGame m).1 pyNewCheckersGame =
        readBoard (pyMakeMove DEFAULT_BOARD_SETUP pyNewCheckersGame m).1
          (pyMakeMove DEFAULT_BOARD_SETUP pyNewCheckersGame m).2 ∧
      readBoard (pyMakeMove DEFAULT_BOARD_SETUP pyNewCheckersGame m).1 pyNewCheckersGame =
        ((toValueGame DEFAULT_BOARD_SETUP pyNewCheckersGame).make_move m).board) ∧
    readBoard (pyMakeMove DEFAULT_BOARD_SETUP pyNewCheckersGame
        (Move.mk ['2', '0', '3', '1'] false)).1 pyNewCheckersGame ≠ DEFAULT_BOARD_SETUP :=
  ⟨fun m => ⟨rfl, rfl⟩, by decide⟩

/-! ### Claim C7: men chain forward only, kings in all four directions -/

/-- Parse a move's digit string back into its coordinate chain. -/
def chainCoords : List Char → List (Nat × Nat)
  | c1 :: c2 :: rest => (pyDigit c1, pyDigit c2) :: chainCoords rest
  | _ => []

theorem strNat_digit (n : Nat) (h : n < 10) : strNat n = [Nat.digitChar n] := by
  interval_cases n <;> rfl

theorem pyDigit_digitChar (n : Nat) (h : n < 10) : pyDigit (Nat.digitChar n) = n := by
  interval_cases n <;> rfl

theorem chainCoords_append (a b : Nat) (ha : a < 10) (hb : b < 10) (rest : List Char) :
    chainCoords (strNat a ++ strNat b ++ rest) = (a, b) :: chainCoords rest := by
  rw [strNat_digit a ha, strNat_digit b hb]
  simp [chainCoords, pyDigit_digitChar a ha, pyDigit_digitChar b hb]

theorem chainCoords_pair (a b : Nat) (ha : a < 10) (hb : b < 10) :
    chainCoords (strNat a ++ strNat b) = [(a, b)] := by
  rw [strNat_digit a ha, strNat_digit b hb]
  simp [chainCoords, pyDigit_digitChar a ha, pyDigit_digitChar b hb]

/-- The four-coordinate simple/capture strings parse into two hops (the
source concatenates left-associatively). -/
theorem chainCoords_four (a b c d : Nat) (ha : a < 10) (hb : b < 10) (hc : c < 10)
    (hd : d < 10) :
    chainCoords (strNat a ++ strNat b ++ strNat c ++ strNat d) = [(a, b), (c, d)] := by
  rw [strNat_digit a ha, strNat_digit b hb, strNat_digit c hc, strNat_digit d hd]
  simp [chainCoords, pyDigit_digitChar a ha, pyDigit_digitChar b hb,
    pyDigit_digitChar c hc, pyDigit_digitChar d hd]

/-- Top-left probes of a white man (or chained through
`check_additional_fuel`): every produced move's coordinate chain starts at
the probed square and is strictly ascending in rows. -/
theorem tl_chain_white (fuel : Nat)
    (HA : ∀ (g : CheckersGame) (og loc : Nat × Nat) (p : Piece),
      g.is_white_move = true → p.is_king = false →
      og.1 < 10 → og.2 < 10 → og.1 < loc.1 → loc.1 < 8 → loc.2 < 8 →
      ∀ mv ∈ check_additional_fuel fuel g og loc p,
        ∃ tail, chainCoords mv.move = (og.1, og.2) :: tail ∧
          List.Chain' (fun a b => a.1 < b.1) ((og.1, og.2) :: tail)) :
    ∀ (g : CheckersGame) (white : Bool) (loc : Nat × Nat) (p : Piece) (dbl : Bool),
      white = true → g.is_white_move = true → p.is_king = false →
      loc.1 < 8 → loc.2 < 8 →
      ∀ mv ∈ check_tl_with (check_additional_fuel fuel) g white loc p dbl,
        ∃ tail, chainCoords mv.move = (loc.1, loc.2) :: tail ∧
          List.Chain' (fun a b => a.1 < b.1) ((loc.1, loc.2) :: tail) := by
  intro g white loc p dbl hwhite hgw hpk hl1 hl2 mv hmv
  rw [check_tl_with] at hmv
  by_cases hcond : loc.2 ≠ 0 ∧ loc.1 ≠ 7 ∧ white = true
  swap
  · rw [if_neg hcond, if_neg (by rw [hwhite]; rintro ⟨-, -, h⟩; cases h)] at hmv
    cases hmv
  rw [if_pos hcond] at hmv
  rcases hcell : boardAt g.board (loc.1 + 1) (loc.2 - 1) with _ | q <;> rw [hcell] at hmv
  · dsimp only at hmv
    split_ifs at hmv with hd
    · cases hmv
    · rcases List.mem_singleton.mp hmv with rfl
      refine ⟨[(loc.1 + 1, loc.2 - 1)], ?_, ?_⟩
      · exact chainCoords_four loc.1 loc.2 (loc.1 + 1) (loc.2 - 1)
          (by omega) (by omega) (by omega) (by omega)
      · exact List.chain'_cons.mpr ⟨by omega, List.chain'_singleton _⟩
  · dsimp only at hmv
    split_ifs at hmv with hcap
    · rcases List.mem_cons.mp hmv with rfl | hmv2
      · refine ⟨[(loc.1 + 2, loc.2 - 2)], ?_, ?_⟩
        · exact chainCoords_four loc.1 loc.2 (loc.1 + 2) (loc.2 - 2)
            (by omega) (by omega) (by omega) (by omega)
        · exact List.chain'_cons.mpr ⟨by omega, List.chain'_singleton _⟩
      · exact HA g (loc.1, loc.2) (loc.1 + 2, loc.2 - 2) p hgw hpk (by omega) (by omega)
          (by omega) (by omega) (by omega) mv hmv2
    · cases hmv

/-- Top-right probes of a white man: chains ascend in rows. -/
theorem tr_chain_white (fuel : Nat)
    (HA : ∀ (g : CheckersGame) (og loc : Nat × Nat) (p : Piece),
      g.is_white_move = true → p.is_king = false →
      og.1 < 10 → og.2 < 10 → og.1 < loc.1 → loc.1 < 8 → loc.2 < 8 →
      ∀ mv ∈ check_additional_fuel fuel g og loc p,
        ∃ tail, chainCoords mv.move = (og.1, og.2) :: tail ∧
          List.Chain' (fun a b => a.1 < b.1) ((og.1, og.2) :: tail)) :
    ∀ (g : CheckersGame) (white : Bool) (loc : Nat × Nat) (p : Piece) (dbl : Bool),
      white = true → g.is_white_move = true → p.is_king = false →
      loc.1 < 8 → loc.2 < 8 →
      ∀ mv ∈ check_tr_with (check_additional_fuel fuel) g white loc p dbl,
        ∃ tail, chainCoords mv.move = (loc.1, loc.2) :: tail ∧
          List.Chain' (fun a b => a.1 < b.1) ((loc.1, loc.2) :: tail) := by
  intro g white loc p dbl hwhite hgw hpk hl1 hl2 mv hmv
  rw [check_tr_with] at hmv
  by_cases hcond : loc.2 ≠ 7 ∧ loc.1 ≠ 7 ∧ white = true
  swap
  · rw [if_neg hcond, if_neg (by rw [hwhite]; rintro ⟨-, -, h⟩; cases h)] at hmv
    cases hmv
  rw [if_pos hcond] at hmv
  rcases hcell : boardAt g.board (loc.1 + 1) (loc.2 + 1) with _ | q <;> rw [hcell] at hmv
  · dsimp only at hmv
    split_ifs at hmv with hd
    · cases hmv
    · rcases List.mem_singleton.mp hmv with rfl
      refine ⟨[(loc.1 + 1, loc.2 + 1)], ?_, ?_⟩
      · exact chainCoords_four loc.1 loc.2 (loc.1 + 1) (loc.2 + 1)
          (by omega) (by omega) (by omega) (by omega)
      · exact List.chain'_cons.mpr ⟨by omega, List.chain'_singleton _⟩
  · dsimp only at hmv
    split_ifs at hmv with hcap
    · rcases List.mem_cons.mp hmv with rfl | hmv2
      · refine ⟨[(loc.1 + 2, loc.2 + 2)], ?_, ?_⟩
        · exact chainCoords_four loc.1 loc.2 (loc.1 + 2) (loc.2 + 2)
            (by omega) (by omega) (by omega) (by omega)
        · exact List.chain'_cons.mpr ⟨by omega, List.chain'_singleton _⟩
      · exact HA g (loc.1, loc.2) (loc.1 + 2, loc.2 + 2) p hgw hpk (by omega) (by omega)
          (by omega) (by omega) (by omega) mv hmv2
    · cases hmv

/-- Chain continuations of a white man ascend in rows at every hop. -/
theorem addl_chain_white : ∀ (fuel : Nat) (g : CheckersGame) (og loc : Nat × Nat) (p : Piece),
    g.is_white_move = true → p.is_king = false →
    og.1 < 10 → og.2 < 10 → og.1 < loc.1 → loc.1 < 8 → loc.2 < 8 →
    ∀ mv ∈ check_additional_fuel fuel g og loc p,
      ∃ tail, chainCoords mv.move = (og.1, og.2) :: tail ∧
        List.Chain' (fun a b => a.1 < b.1) ((og.1, og.2) :: tail) := by
  intro fuel
  induction fuel with
  | zero => intro g og loc p _ _ _ _ _ _ _ mv hmv; cases hmv
  | succ n ih =>
      intro g og loc p hgw hpk ho1 ho2 holt hl1 hl2 mv hmv
      rw [check_additional_fuel] at hmv
      simp only [CheckersGame.make_copy_game] at hmv
      rw [if_pos ⟨hgw, by simp [hpk]⟩] at hmv
      obtain ⟨mvi, hmvi, rfl⟩ := List.mem_map.mp hmv
      set tg : CheckersGame :=
        { board := boardSet g.board ((og.1 + loc.1) / 2) ((og.2 + loc.2) / 2) none,
          is_white_move := g.is_white_move, gamestate := "MENU", white_win := true,
          player_turn := true, moves_since_cap := 0, is_draw := false,
          main_game := false } with htg
      have htgw : tg.is_white_move = true := hgw
      rcases List.mem_append.mp hmvi with h | h
      · obtain ⟨tail, hparse, hasc⟩ :=
          tl_chain_white n ih tg g.is_white_move loc p true hgw htgw hpk hl1 hl2 mvi h
        refine ⟨(loc.1, loc.2) :: tail, ?_, ?_⟩
        · show chainCoords (strNat og.1 ++ strNat og.2 ++ mvi.move) = _
          rw [chainCoords_append og.1 og.2 ho1 ho2, hparse]
        · exact List.chain'_cons.mpr ⟨holt, hasc⟩
      · obtain ⟨tail, hparse, hasc⟩ :=
          tr_chain_white n ih tg g.is_white_move loc p true hgw htgw hpk hl1 hl2 mvi h
        refine ⟨(loc.1, loc.2) :: tail, ?_, ?_⟩
        · show chainCoords (strNat og.1 ++ strNat og.2 ++ mvi.move) = _
          rw [chainCoords_append og.1 og.2 ho1 ho2, hparse]
        · exact List.chain'_cons.mpr ⟨holt, hasc⟩

/-- Bottom-left probes of a black man: chains descend in rows. -/
theorem bl_chain_black (fuel : Nat)
    (HA : ∀ (g : CheckersGame) (og loc : Nat × Nat) (p : Piece),
      g.is_white_move = false → p.is_king = false →
      og.1 < 10 → og.2 < 10 → loc.1 < og.1 → loc.1 < 8 → loc.2 < 8 →
      ∀ mv ∈ check_additional_fuel fuel g og loc p,
        ∃ tail, chainCoords mv.move = (og.1, og.2) :: tail ∧
          List.Chain' (fun a b => b.1 < a.1) ((og.1, og.2) :: tail)) :
    ∀ (g : CheckersGame) (white : Bool) (loc : Nat × Nat) (p : Piece) (dbl : Bool),
      white = false → g.is_white_move = false → p.is_king = false →
      loc.1 < 8 → loc.2 < 8 →
      ∀ mv ∈ check_bl_with (check_additional_fuel fuel) g white loc p dbl,
        ∃ tail, chainCoords mv.move = (loc.1, loc.2) :: tail ∧
          List.Chain' (fun a b => b.1 < a.1) ((loc.1, loc.2) :: tail) := by
  intro g white loc p dbl hwhite hgw hpk hl1 hl2 mv hmv
  rw [check_bl_with] at hmv
  rw [if_neg (by rw [hwhite]; rintro ⟨-, -, h⟩; cases h)] at hmv
  by_cases hcond : loc.2 ≠ 0 ∧ loc.1 ≠ 0 ∧ white = false
  swap
  · rw [if_neg hcond] at hmv
    cases hmv
  rw [if_pos hcond] at hmv
  rcases hcell : boardAt g.board (loc.1 - 1) (loc.2 - 1) with _ | q <;> rw [hcell] at hmv
  · dsimp only at hmv
    split_ifs at hmv with hd
    · cases hmv
    · rcases List.mem_singleton.mp hmv with rfl
      refine ⟨[(loc.1 - 1, loc.2 - 1)], ?_, ?_⟩
      · exact chainCoords_four loc.1 loc.2 (loc.1 - 1) (loc.2 - 1)
          (by omega) (by omega) (by omega) (by omega)
      · refine List.chain'_cons.mpr ⟨?_, List.chain'_singleton _⟩
        have : loc.1 ≠ 0 := hcond.2.1
        omega
  · dsimp only at hmv
    split_ifs at hmv with hcap
    · rcases List.mem_cons.mp hmv with rfl | hmv2
      · refine ⟨[(loc.1 - 2, loc.2 - 2)], ?_, ?_⟩
        · exact chainCoords_four loc.1 loc.2 (loc.1 - 2) (loc.2 - 2)
            (by omega) (by omega) (by omega) (by omega)
        · refine List.chain'_cons.mpr ⟨?_, List.chain'_singleton _⟩
          have : loc.1 > 1 := hcap.2.2.1
          omega
      · refine HA g (loc.1, loc.2) (loc.1 - 2, loc.2 - 2) p hgw hpk (by omega) (by omega)
          ?_ (by omega) (by omega) mv hmv2
        have : loc.1 > 1 := hcap.2.2.1
        omega
    · cases hmv

/-- Bottom-right probes of a black man: chains descend in rows. -/
theorem br_chain_black (fuel : Nat)
    (HA : ∀ (g : CheckersGame) (og loc : Nat × Nat) (p : Piece),
      g.is_white_move = false → p.is_king = false →
      og.1 < 10 → og.2 < 10 → loc.1 < og.1 → loc.1 < 8 → loc.2 < 8 →
      ∀ mv ∈ check_additional_fuel fuel g og loc p,
        ∃ tail, chainCoords mv.move = (og.1, og.2) :: tail ∧
          List.Chain' (fun a b => b.1 < a.1) ((og.1, og.2) :: tail)) :
    ∀ (g : CheckersGame) (white : Bool) (loc : Nat × Nat) (p : Piece) (dbl : Bool),
      white = false → g.is_white_move = false → p.is_king = false →
      loc.1 < 8 → loc.2 < 8 →
      ∀ mv ∈ check_br_with (check_additional_fuel fuel) g white loc p dbl,
        ∃ tail, chainCoords mv.move = (loc.1, loc.2) :: tail ∧
          List.Chain' (fun a b => b.1 < a.1) ((loc.1, loc.2) :: tail) := by
  intro g white loc p dbl hwhite hgw hpk hl1 hl2 mv hmv
  rw [check_br_with] at hmv
  rw [if_neg (by rw [hwhite]; rintro ⟨-, -, h⟩; cases h)] at hmv
  by_cases hcond : loc.2 ≠ 7 ∧ loc.1 ≠ 0 ∧ white = false
  swap
  · rw [if_neg hcond] at hmv
    cases hmv
  rw [if_pos hcond] at hmv
  rcases hcell : boardAt g.board (loc.1 - 1) (loc.2 + 1) with _ | q <;> rw [hcell] at hmv
  · dsimp only at hmv
    split_ifs at hmv with hd
    · cases hmv
    · rcases List.mem_singleton.mp hmv with rfl
      refine ⟨[(loc.1 - 1, loc.2 + 1)], ?_, ?_⟩
      · exact chainCoords_four loc.1 loc.2 (loc.1 - 1) (loc.2 + 1)
          (by omega) (by omega) (by omega) (by omega)
      · refine List.chain'_cons.mpr ⟨?_, List.chain'_singleton _⟩
        have : loc.1 ≠ 0 := hcond.2.1
        omega
  · dsimp only at hmv
    split_ifs at hmv with hcap
    · rcases List.mem_cons.mp hmv with rfl | hmv2
      · refine ⟨[(loc.1 - 2, loc.2 + 2)], ?_, ?_⟩
        · exact chainCoords_four loc.1 loc.2 (loc.1 - 2) (loc.2 + 2)
            (by omega) (by omega) (by omega) (by omega)
        · refine List.chain'_cons.mpr ⟨?_, List.chain'_singleton _⟩
          have : loc.1 > 1 := hcap.2.2.1
          omega
      · refine HA g (loc.1, loc.2) (loc.1 - 2, loc.2 + 2) p hgw hpk (by omega) (by omega)
          ?_ (by omega) (by omega) mv hmv2
        have : loc.1 > 1 := hcap.2.2.1
        omega
    · cases hmv

/-- Chain continuations of a black man descend in rows at every hop. -/
theorem addl_chain_black : ∀ (fuel : Nat) (g : CheckersGame) (og loc : Nat × Nat) (p : Piece),
    g.is_white_move = false → p.is_king = false →
    og.1 < 10 → og.2 < 10 → loc.1 < og.1 → loc.1 < 8 → loc.2 < 8 →
    ∀ mv ∈ check_additional_fuel fuel g og loc p,
      ∃ tail, chainCoords mv.move = (og.1, og.2) :: tail ∧
        List.Chain' (fun a b => b.1 < a.1) ((og.1, og.2) :: tail) := by
  intro fuel
  induction fuel with
  | zero => intro g og loc p _ _ _ _ _ _ _ mv hmv; cases hmv
  | succ n ih =>
      intro g og loc p hgw hpk ho1 ho2 holt hl1 hl2 mv hmv
      rw [check_additional_fuel] at hmv
      simp only [CheckersGame.make_copy_game] at hmv
      rw [if_neg (by simp [hgw]), if_pos ⟨by simp [hgw], by simp [hpk]⟩] at hmv
      obtain ⟨mvi, hmvi, rfl⟩ := List.mem_map.mp hmv
      set tg : CheckersGame :=
        { board := boardSet g.board ((og.1 + loc.1) / 2) ((og.2 + loc.2) / 2) none,
          is_white_move := g.is_white_move, gamestate := "MENU", white_win := true,
          player_turn := true, moves_since_cap := 0, is_draw := false,
          main_game := false } with htg
      have htgw : tg.is_white_move = false := hgw
      rcases List.mem_append.mp hmvi with h | h
      · obtain ⟨tail, hparse, hasc⟩ :=
          bl_chain_black n ih tg g.is_white_move loc p true hgw htgw hpk hl1 hl2 mvi h
        refine ⟨(loc.1, loc.2) :: tail, ?_, ?_⟩
        · show chainCoords (strNat og.1 ++ strNat og.2 ++ mvi.move) = _
          rw [chainCoords_append og.1 og.2 ho1 ho2, hparse]
        · exact List.chain'_cons.mpr ⟨holt, hasc⟩
      · obtain ⟨tail, hparse, hasc⟩ :=
          br_chain_black n ih tg g.is_white_move loc p true hgw htgw hpk hl1 hl2 mvi h
        refine ⟨(loc.1, loc.2) :: tail, ?_, ?_⟩
        · show chainCoords (strNat og.1 ++ strNat og.2 ++ mvi.move) = _
          rw [chainCoords_append og.1 og.2 ho1 ho2, hparse]
        · exact List.chain'_cons.mpr ⟨holt, hasc⟩

/-- A white king on (2,2) with black men on (3,3) and (3,5): its capture
chain goes forward then backward. -/
def c7KingBoard : Board := boardOfList
  [[none, none, none, none, none, none, none, none],
   [none, none, none, none, none, none, none, none],
   [none, none, some ⟨true, true⟩, none, none, none, none, none],
   [none, none, none, some (mkPiece false), none, some (mkPiece false), none, none],
   [none, none, none, none, none, none, none, none],
   [none, none, none, none, none, none, none, none],
   [none, none, none, none, none, none, none, none],
   [none, none, none, none, none, none, none, none]]

def c7KingGame : CheckersGame := newCheckersGame true (some c7KingBoard) "GAME"

/-- C7: while continuing a capture chain a white man's coordinate chain
strictly ascends in rows and a black man's strictly descends — men are
probed in their two forward diagonals only, mid-chain exactly as at the
start — whereas a king's continuations are probed in all four directions:
the king on (2,2) produces the chain `(2,2) → (4,4) → (2,6)`, which is
neither ascending nor descending. -/
theorem c7_man_chain_directions :
    (∀ (g : CheckersGame) (og loc : Nat × Nat) (p : Piece),
      g.is_white_move = true → p.is_king = false →
      og.1 < 10 → og.2 < 10 → og.1 < loc.1 → loc.1 < 8 → loc.2 < 8 →
      ∀ mv ∈ g.check_additional_capture og loc p,
        List.Chain' (fun a b => a.1 < b.1) (chainCoords mv.move)) ∧
    (∀ (g : CheckersGame) (og loc : Nat × Nat) (p : Piece),
      g.is_white_move = false → p.is_king = false →
      og.1 < 10 → og.2 < 10 → loc.1 < og.1 → loc.1 < 8 → loc.2 < 8 →
      ∀ mv ∈ g.check_additional_capture og loc p,
        List.Chain' (fun a b => b.1 < a.1) (chainCoords mv.move)) ∧
    (Move.mk ['2', '2', '4', '4', '2', '6'] true ∈ c7KingGame.find_legal_moves ∧
      ¬ List.Chain' (fun a b => a.1 < b.1)
          (chainCoords (Move.mk ['2', '2', '4', '4', '2', '6'] true).move) ∧
      ¬ List.Chain' (fun a b => b.1 < a.1)
          (chainCoords (Move.mk ['2', '2', '4', '4', '2', '6'] true).move)) := by
  have hcc : chainCoords (Move.mk ['2', '2', '4', '4', '2', '6'] true).move =
      [(2, 2), (4, 4), (2, 6)] := rfl
  refine ⟨?_, ?_, by decide, ?_, ?_⟩
  · intro g og loc p hgw hpk ho1 ho2 holt hl1 hl2 mv hmv
    obtain ⟨tail, hparse, hasc⟩ :=
      addl_chain_white GAMEFUEL g og loc p hgw hpk ho1 ho2 holt hl1 hl2 mv hmv
    rw [hparse]
    exact hasc
  · intro g og loc p hgw hpk ho1 ho2 holt hl1 hl2 mv hmv
    obtain ⟨tail, hparse, hasc⟩ :=
      addl_chain_black GAMEFUEL g og loc p hgw hpk ho1 ho2 holt hl1 hl2 mv hmv
    rw [hparse]
    exact hasc
  · intro h
    rw [hcc] at h
    have h2 := (List.chain'_cons.mp (List.chain'_cons.mp h).2).1
    simp at h2
  · intro h
    rw [hcc] at h
    have h2 := (List.chain'_cons.mp h).1
    simp at h2

/-- Witness for C7 at a concrete input: the continuation probe of the
white man double capture of the C6 board. -/
theorem c7_man_chain_directions_witness :
    c6Game.is_white_move = true ∧
    (∀ mv ∈ c6Game.check_additional_capture (0, 4) (2, 2) (mkPiece true),
      List.Chain' (fun a b => a.1 < b.1) (chainCoords mv.move)) :=
  ⟨by decide,
    c7_man_chain_directions.1 c6Game (0, 4) (2, 2) (mkPiece true) (by decide) (by decide)
      (by decide) (by decide) (by decide) (by decide) (by decide)⟩

/-! ### Claim C3: plain minimax and alpha-beta agree on the backed-up value -/

/-- The hypothetical game a subtree is evaluated on: a deep copy with the
subtree's move applied. -/
def childGame (game : CheckersGame) (mv : Move) : CheckersGame :=
  (game.make_copy_game).make_move mv

/-- The backed-up value of plain minimax. -/
def plainVal (game : CheckersGame) (t : CheckersGameTree) : Int :=
  (calc_best_move game t).2

/-- The backed-up value of alpha-beta. -/
def pruneVal (game : CheckersGame) (t : CheckersGameTree) (alpha beta : Score) : Score :=
  (calc_best_move_prune game t alpha beta).2

/-- The children's plain minimax values. -/
def valsOf (game : CheckersGame) (l : List CheckersGameTree) : List Int :=
  l.map (fun st => plainVal (childGame game st.move) st)

/-- The children's plain minimax values as scores. -/
def valsS (game : CheckersGame) (l : List CheckersGameTree) : List Score :=
  l.map (fun st => intVal (plainVal (childGame game st.move) st))

theorem valsS_eq_map (game : CheckersGame) (l : List CheckersGameTree) :
    valsS game l = (valsOf game l).map intVal := by
  simp [valsS, valsOf]

/-- The fail-soft window contract of alpha-beta: below the window the
result is an upper bound certificate, above it a lower bound certificate,
inside it the exact value. -/
def ABSpec (alpha beta m r : Score) : Prop :=
  (m ≤ alpha → m ≤ r ∧ r ≤ alpha) ∧
  (beta ≤ m → beta ≤ r ∧ r ≤ m) ∧
  (alpha < m → m < beta → r = m)

theorem ABSpec_refl (alpha beta m : Score) : ABSpec alpha beta m m :=
  ⟨fun h => ⟨le_refl m, h⟩, fun h => ⟨h, le_refl m⟩, fun _ _ => rfl⟩

theorem pick_max_snd {σ : Type} [LinearOrder σ] (b p : Move × σ) :
    (if p.2 > b.2 then p else b).2 = max b.2 p.2 := by
  split_ifs with h
  · exact (max_eq_right h.le).symm
  · exact (max_eq_left (not_lt.mp h)).symm

theorem pick_min_snd {σ : Type} [LinearOrder σ] (b p : Move × σ) :
    (if p.2 < b.2 then p else b).2 = min b.2 p.2 := by
  split_ifs with h
  · exact (min_eq_right h.le).symm
  · exact (min_eq_left (not_lt.mp h)).symm

theorem foldl_max_pairs {σ : Type} [LinearOrder σ] (l : List (Move × σ)) :
    ∀ b : Move × σ, (l.foldl (fun b p => if p.2 > b.2 then p else b) b).2 =
      (l.map Prod.snd).foldl max b.2 := by
  induction l with
  | nil => intro b; rfl
  | cons p ps ih =>
      intro b
      rw [List.foldl_cons, ih, List.map_cons, List.foldl_cons, pick_max_snd]

theorem foldl_min_pairs {σ : Type} [LinearOrder σ] (l : List (Move × σ)) :
    ∀ b : Move × σ, (l.foldl (fun b p => if p.2 < b.2 then p else b) b).2 =
      (l.map Prod.snd).foldl min b.2 := by
  induction l with
  | nil => intro b; rfl
  | cons p ps ih =>
      intro b
      rw [List.foldl_cons, ih, List.map_cons, List.foldl_cons, pick_min_snd]

theorem foldl_max_shift {σ : Type} [LinearOrder σ] (l : List σ) :
    ∀ b c : σ, l.foldl max (max b c) = max b (l.foldl max c) := by
  induction l with
  | nil => intro b c; rfl
  | cons x xs ih =>
      intro b c
      rw [List.foldl_cons, max_assoc, ih, List.foldl_cons]

theorem foldl_min_shift {σ : Type} [LinearOrder σ] (l : List σ) :
    ∀ b c : σ, l.foldl min (min b c) = min b (l.foldl min c) := by
  induction l with
  | nil => intro b c; rfl
  | cons x xs ih =>
      intro b c
      rw [List.foldl_cons, min_assoc, ih, List.foldl_cons]

theorem foldl_max_bot (l : List Score) (b : Score) :
    l.foldl max b = max b (l.foldl max ⊥) := by
  rw [← foldl_max_shift, max_bot_right]

theorem foldl_min_top (l : List Score) (b : Score) :
    l.foldl min b = min b (l.foldl min ⊤) := by
  rw [← foldl_min_shift, min_top_right]

theorem intVal_le_intVal {a b : Int} : intVal a ≤ intVal b ↔ a ≤ b := by
  simp [intVal]

theorem intVal_max (a b : Int) : intVal (max a b) = max (intVal a) (intVal b) := by
  rcases le_total a b with h | h
  · rw [max_eq_right h, max_eq_right (intVal_le_intVal.mpr h)]
  · rw [max_eq_left h, max_eq_left (intVal_le_intVal.mpr h)]

theorem intVal_min (a b : Int) : intVal (min a b) = min (intVal a) (intVal b) := by
  rcases le_total a b with h | h
  · rw [min_eq_left h, min_eq_left (intVal_le_intVal.mpr h)]
  · rw [min_eq_right h, min_eq_right (intVal_le_intVal.mpr h)]

theorem intVal_foldl_max (l : List Int) :
    ∀ b : Int, intVal (l.foldl max b) = (l.map intVal).foldl max (intVal b) := by
  induction l with
  | nil => intro b; rfl
  | cons x xs ih =>
      intro b
      rw [List.foldl_cons, ih, List.map_cons, List.foldl_cons, intVal_max]

theorem intVal_foldl_min (l : List Int) :
    ∀ b : Int, intVal (l.foldl min b) = (l.map intVal).foldl min (intVal b) := by
  induction l with
  | nil => intro b; rfl
  | cons x xs ih =>
      intro b
      rw [List.foldl_cons, ih, List.map_cons, List.foldl_cons, intVal_min]

theorem calc_list_snd (game : CheckersGame) :
    ∀ l : List CheckersGameTree, (calc_list game l).map Prod.snd = valsOf game l := by
  intro l
  induction l with
  | nil => rfl
  | cons st rest ih =>
      rw [calc_list, List.map_cons, ih]
      rfl

theorem plainVal_node (game : CheckersGame) (mv : Move) (wt : Bool)
    (st : CheckersGameTree) (rest : List CheckersGameTree) :
    plainVal game (.mk mv wt (st :: rest)) =
      if game.is_white_move then
        (valsOf game (st :: rest)).foldl max (plainVal (childGame game st.move) st)
      else
        (valsOf game (st :: rest)).foldl min (plainVal (childGame game st.move) st) := by
  unfold plainVal
  rw [calc_best_move]
  have hcl : calc_list game (st :: rest) =
      calc_best_move (childGame game st.move) st :: calc_list game rest := rfl
  rw [hcl]
  dsimp only
  have hsnd : ∀ x : Move × Int, (if mv.move ≠ [] then (mv, x.2) else x).2 = x.2 := by
    intro x; split_ifs <;> rfl
  rw [hsnd]
  rcases hwm : game.is_white_move with _ | _
  · rw [if_neg (by simp), if_neg (by simp), foldl_min_pairs, List.map_cons, calc_list_snd]
    rfl
  · rw [if_pos rfl, if_pos rfl, foldl_max_pairs, List.map_cons, calc_list_snd]
    rfl

theorem root_snd (rootMove : Move) (x : Move × Score) :
    (if rootMove.move = [] then x else (rootMove, x.2)).2 = x.2 := by
  split_ifs <;> rfl

theorem le_foldl_max : ∀ (l : List Score) (b : Score), b ≤ l.foldl max b
  | [], b => le_refl b
  | x :: xs, b => le_trans (le_max_left b x) (le_foldl_max xs (max b x))

theorem foldl_min_le : ∀ (l : List Score) (b : Score), l.foldl min b ≤ b
  | [], b => le_refl b
  | x :: xs, b => le_trans (foldl_min_le xs (min b x)) (min_le_left b x)

theorem valsS_cons (game : CheckersGame) (st : CheckersGameTree)
    (rest : List CheckersGameTree) :
    valsS game (st :: rest) =
      intVal (plainVal (childGame game st.move) st) :: valsS game rest := rfl

mutual

/-- The fail-soft window contract of the pruning search, relative to the
plain minimax value, for every window `alpha < beta`. -/
theorem prune_spec : ∀ (t : CheckersGameTree) (game : CheckersGame) (alpha beta : Score),
    alpha < beta →
    ABSpec alpha beta (intVal (plainVal game t)) (pruneVal game t alpha beta)
  | .mk mv wt [], game, alpha, beta, _ => by
      have h1 : pruneVal game (.mk mv wt []) alpha beta = intVal (pieceScore game) := by
        unfold pruneVal
        rw [calc_best_move_prune]
      have h2 : plainVal game (.mk mv wt []) = pieceScore game := by
        unfold plainVal
        rw [calc_best_move]
      rw [h1, h2]
      exact ABSpec_refl _ _ _
  | .mk mv wt (st :: rest), game, alpha, beta, hab => by
      have hm : intVal (plainVal game (.mk mv wt (st :: rest))) =
          if game.is_white_move then
            (valsS game (st :: rest)).foldl max ⊥
          else
            (valsS game (st :: rest)).foldl min ⊤ := by
        rw [plainVal_node]
        rcases game.is_white_move with _ | _
        · rw [if_neg (by simp), if_neg (by simp), intVal_foldl_min, ← valsS_eq_map,
            valsS_cons, List.foldl_cons, List.foldl_cons, min_self, min_top_left]
        · rw [if_pos rfl, if_pos rfl, intVal_foldl_max, ← valsS_eq_map,
            valsS_cons, List.foldl_cons, List.foldl_cons, max_self, max_bot_left]
      unfold pruneVal
      rw [calc_best_move_prune]
      rcases hwm : game.is_white_move with _ | _
      · rw [hwm] at hm
        rw [if_neg (by simp), hm, if_neg (by simp)]
        have hl := loop_black_spec (st :: rest) game mv alpha beta (⟨[], false⟩, ⊤) hab le_top
        exact hl.2
      · rw [hwm] at hm
        rw [if_pos rfl, hm, if_pos rfl]
        have hl := loop_white_spec (st :: rest) game mv alpha beta (⟨[], false⟩, ⊥) hab bot_le
        exact hl.2

/-- Contract of the white (maximising) pruning loop: the running best only
grows, and the result satisfies the window contract for the maximum of
the running best and the remaining children's values. -/
theorem loop_white_spec : ∀ (l : List CheckersGameTree) (game : CheckersGame)
    (rootMove : Move) (alpha beta : Score) (b : Move × Score),
    alpha < beta → b.2 ≤ alpha →
    b.2 ≤ (prune_loop_white game rootMove l alpha beta b).2 ∧
    ABSpec alpha beta ((valsS game l).foldl max b.2)
      ((prune_loop_white game rootMove l alpha beta b).2)
  | [], game, rootMove, alpha, beta, b, hab, hb => by
      rw [prune_loop_white, root_snd]
      refine ⟨le_refl _, ?_, ?_, ?_⟩
      · intro h
        exact ⟨le_refl _, hb⟩
      · intro h
        exact absurd (lt_of_lt_of_le hab h) (not_lt.mpr hb)
      · intro h1 _
        exact absurd h1 (not_lt.mpr hb)
  | st :: rest, game, rootMove, alpha, beta, b, hab, hb => by
      have hchild0 := prune_spec st (childGame game st.move) alpha beta hab
      rw [prune_loop_white]
      set P := calc_best_move_prune ((game.make_copy_game).make_move st.move) st alpha beta
        with hP
      set v1 := intVal (plainVal (childGame game st.move) st) with hv1
      have hchild : ABSpec alpha beta v1 P.2 := hchild0
      rw [valsS_cons, List.foldl_cons]
      set s := (valsS game rest).foldl max ⊥ with hs
      have hM : (valsS game rest).foldl max (max b.2 v1) = max (max b.2 v1) s :=
        foldl_max_bot _ _
      have hbest : (if P.2 > b.2 then P else b).2 = max b.2 P.2 := pick_max_snd b P
      by_cases hcut : beta ≤ max alpha (if P.2 > b.2 then P else b).2
      · rw [if_pos hcut, root_snd, hbest, hM]
        rw [hbest] at hcut
        have hbr1 : beta ≤ max b.2 P.2 := by
          rcases le_max_iff.mp hcut with h | h
          · exact absurd h (not_le.mpr hab)
          · exact h
        have hr1β : beta ≤ P.2 := by
          rcases le_max_iff.mp hbr1 with h | h
          · exact absurd (le_trans h hb) (not_le.mpr hab)
          · exact h
        have hmaxr : max b.2 P.2 = P.2 :=
          max_eq_right (le_trans hb (le_trans hab.le hr1β))
        have hv1β : beta ≤ v1 := by
          rcases le_or_lt v1 alpha with hv | hv
          · exact absurd hr1β (not_le.mpr (lt_of_le_of_lt (hchild.1 hv).2 hab))
          · rcases lt_or_le v1 beta with hv2 | hv2
            · exact absurd (hchild.2.2 hv hv2 ▸ hr1β) (not_le.mpr hv2)
            · exact hv2
        have hr1v1 : P.2 ≤ v1 := (hchild.2.1 hv1β).2
        have hMv1 : v1 ≤ max (max b.2 v1) s :=
          le_trans (le_max_right b.2 v1) (le_max_left _ s)
        refine ⟨by rw [hmaxr]; exact le_trans hb (le_trans hab.le hr1β), ?_, ?_, ?_⟩
        · intro h
          exact absurd (lt_of_lt_of_le hab (le_trans hv1β (le_trans hMv1 h)))
            (lt_irrefl alpha)
        · intro _
          exact ⟨by rw [hmaxr]; exact hr1β, by rw [hmaxr]; exact le_trans hr1v1 hMv1⟩
        · intro _ h2
          exact absurd (lt_of_le_of_lt (le_trans hv1β hMv1) h2) (lt_irrefl beta)
      · rw [if_neg hcut, hM]
        have hab2 : max alpha (if P.2 > b.2 then P else b).2 < beta := not_le.mp hcut
        have hIH := loop_white_spec rest game rootMove
          (max alpha (if P.2 > b.2 then P else b).2) beta (if P.2 > b.2 then P else b)
          hab2 (le_max_right _ _)
        have hM2 : (valsS game rest).foldl max (if P.2 > b.2 then P else b).2 =
            max (max b.2 P.2) s := by
          rw [hbest]
          exact foldl_max_bot _ _
        rw [hM2] at hIH
        set r := (prune_loop_white game rootMove rest
          (max alpha (if P.2 > b.2 then P else b).2) beta (if P.2 > b.2 then P else b)).2
          with hr
        have hbbest : b.2 ≤ (if P.2 > b.2 then P else b).2 := by
          rw [hbest]; exact le_max_left _ _
        have h1 : b.2 ≤ r := le_trans hbbest hIH.1
        rcases le_or_lt v1 alpha with hv | hv
        · -- child value at or below the window
          obtain ⟨hvr1, hr1α⟩ := hchild.1 hv
          have hbestα : (if P.2 > b.2 then P else b).2 ≤ alpha := by
            rw [hbest]; exact max_le hb hr1α
          have hα2 : max alpha (if P.2 > b.2 then P else b).2 = alpha :=
            max_eq_left hbestα
          rw [hα2] at hIH
          have hMM : max (max b.2 v1) s ≤ max (max b.2 P.2) s :=
            max_le_max (max_le_max (le_refl b.2) hvr1) (le_refl s)
          refine ⟨h1, ?_, ?_, ?_⟩
          · intro h
            have hsα : s ≤ alpha :=
              le_trans (le_max_right (max b.2 v1) s) h
            have hM2α : max (max b.2 P.2) s ≤ alpha :=
              max_le (max_le hb hr1α) hsα
            exact ⟨le_trans hMM (hIH.2.1 hM2α).1, (hIH.2.1 hM2α).2⟩
          · intro h
            have hsβ : beta ≤ s := by
              rcases le_max_iff.mp h with h2 | h2
              · exact absurd (le_trans h2 (max_le hb hv)) (not_le.mpr hab)
              · exact h2
            have hM2β : beta ≤ max (max b.2 P.2) s := le_trans hsβ (le_max_right _ _)
            refine ⟨(hIH.2.2.1 hM2β).1, le_trans (hIH.2.2.1 hM2β).2 ?_⟩
            have hbrs : max b.2 P.2 ≤ s :=
              le_trans (max_le hb hr1α) (le_trans hab.le hsβ)
            rw [max_eq_right hbrs]
            exact le_max_right _ _
          · intro h1' h2'
            have hMs : max (max b.2 v1) s = s := by
              rcases max_choice (max b.2 v1) s with h3 | h3
              · exact absurd (h3 ▸ h1') (not_lt.mpr (max_le hb hv))
              · exact h3
            have hαs : alpha < s := by rw [← hMs]; exact h1'
            have hM2s : max (max b.2 P.2) s = s :=
              max_eq_right (le_trans (max_le hb hr1α) hαs.le)
            rw [hMs] at h1' h2' ⊢
            rw [hM2s] at hIH
            exact hIH.2.2.2 h1' h2'
        · rcases lt_or_le v1 beta with hv2 | hv2
          · -- child value inside the window: exact
            have hr1v : P.2 = v1 := hchild.2.2 hv hv2
            have hbv1 : max b.2 v1 = v1 := max_eq_right (le_trans hb hv.le)
            have hbestv : (if P.2 > b.2 then P else b).2 = v1 := by
              rw [hbest, hr1v, hbv1]
            have hα2 : max alpha (if P.2 > b.2 then P else b).2 = v1 := by
              rw [hbestv]
              exact max_eq_right hv.le
            have hMM : max (max b.2 P.2) s = max (max b.2 v1) s := by rw [hr1v]
            rw [hα2, hMM, hbv1] at hIH
            rw [hbv1]
            refine ⟨h1, ?_, ?_, ?_⟩
            · intro h
              exact absurd (lt_of_lt_of_le hv (le_trans (le_max_left v1 s) h))
                (lt_irrefl alpha)
            · intro h
              exact hIH.2.2.1 h
            · intro h1' h2'
              rcases max_choice v1 s with h3 | h3
              · rw [h3]
                rw [h3] at hIH
                have hvv := hIH.2.1 (le_refl v1)
                exact le_antisymm hvv.2 hvv.1
              · rcases lt_or_le v1 (max v1 s) with h4 | h4
                · exact hIH.2.2.2 h4 h2'
                · have hms : max v1 s = v1 := le_antisymm h4 (le_max_left _ _)
                  rw [hms]
                  rw [hms] at hIH
                  have hvv := hIH.2.1 (le_refl v1)
                  exact le_antisymm hvv.2 hvv.1
          · -- child value at or above the window: the loop must have cut
            obtain ⟨hβr1, _⟩ := hchild.2.1 hv2
            refine absurd ?_ hcut
            refine le_trans hβr1 (le_trans ?_ (le_max_right alpha _))
            rw [hbest]
            exact le_max_right b.2 P.2

/-- Contract of the black (minimising) pruning loop. -/
theorem loop_black_spec : ∀ (l : List CheckersGameTree) (game : CheckersGame)
    (rootMove : Move) (alpha beta : Score) (b : Move × Score),
    alpha < beta → beta ≤ b.2 →
    (prune_loop_black game rootMove l alpha beta b).2 ≤ b.2 ∧
    ABSpec alpha beta ((valsS game l).foldl min b.2)
      ((prune_loop_black game rootMove l alpha beta b).2)
  | [], game, rootMove, alpha, beta, b, hab, hb => by
      rw [prune_loop_black, root_snd]
      refine ⟨le_refl _, ?_, ?_, ?_⟩
      · intro h
        exact absurd (lt_of_le_of_lt (le_trans hb h) hab) (lt_irrefl beta)
      · intro h
        exact ⟨hb, le_refl _⟩
      · intro _ h2
        exact absurd (lt_of_le_of_lt hb h2) (lt_irrefl beta)
  | st :: rest, game, rootMove, alpha, beta, b, hab, hb => by
      have hchild0 := prune_spec st (childGame game st.move) alpha beta hab
      rw [prune_loop_black]
      set P := calc_best_move_prune ((game.make_copy_game).make_move st.move) st alpha beta
        with hP
      set v1 := intVal (plainVal (childGame game st.move) st) with hv1
      have hchild : ABSpec alpha beta v1 P.2 := hchild0
      rw [valsS_cons, List.foldl_cons]
      set s := (valsS game rest).foldl min ⊤ with hs
      have hM : (valsS game rest).foldl min (min b.2 v1) = min (min b.2 v1) s :=
        foldl_min_top _ _
      have hbest : (if P.2 < b.2 then P else b).2 = min b.2 P.2 := pick_min_snd b P
      by_cases hcut : min beta (if P.2 < b.2 then P else b).2 ≤ alpha
      · rw [if_pos hcut, root_snd, hbest, hM]
        rw [hbest] at hcut
        have hbr1 : min b.2 P.2 ≤ alpha := by
          rcases min_le_iff.mp hcut with h | h
          · exact absurd (lt_of_lt_of_le hab h) (lt_irrefl alpha)
          · exact h
        have hr1α : P.2 ≤ alpha := by
          rcases min_le_iff.mp hbr1 with h | h
          · exact absurd (lt_of_lt_of_le hab (le_trans hb h)) (lt_irrefl alpha)
          · exact h
        have hminr : min b.2 P.2 = P.2 :=
          min_eq_right (le_trans hr1α (le_trans hab.le hb))
        have hv1α : v1 ≤ alpha := by
          rcases lt_or_le alpha v1 with hv | hv
          · rcases lt_or_le v1 beta with hv2 | hv2
            · exact absurd (hchild.2.2 hv hv2 ▸ hr1α) (not_le.mpr hv)
            · exact absurd hr1α (not_le.mpr (lt_of_lt_of_le hab (hchild.2.1 hv2).1))
          · exact hv
        have hv1r1 : v1 ≤ P.2 := (hchild.1 hv1α).1
        have hMv1 : min (min b.2 v1) s ≤ v1 :=
          le_trans (min_le_left _ s) (min_le_right b.2 v1)
        refine ⟨by rw [hminr]; exact le_trans hr1α (le_trans hab.le hb), ?_, ?_, ?_⟩
        · intro _
          exact ⟨by rw [hminr]; exact le_trans hMv1 hv1r1,
            by rw [hminr]; exact hr1α⟩
        · intro h
          exact absurd (lt_of_lt_of_le hab (le_trans h (le_trans hMv1 hv1α)))
            (lt_irrefl alpha)
        · intro h1 _
          exact absurd (lt_of_lt_of_le h1 (le_trans hMv1 hv1α)) (lt_irrefl alpha)
      · rw [if_neg hcut, hM]
        have hab2 : alpha < min beta (if P.2 < b.2 then P else b).2 := not_le.mp hcut
        have hIH := loop_black_spec rest game rootMove
          alpha (min beta (if P.2 < b.2 then P else b).2) (if P.2 < b.2 then P else b)
          hab2 (min_le_right _ _)
        have hM2 : (valsS game rest).foldl min (if P.2 < b.2 then P else b).2 =
            min (min b.2 P.2) s := by
          rw [hbest]
          exact foldl_min_top _ _
        rw [hM2] at hIH
        set r := (prune_loop_black game rootMove rest
          alpha (min beta (if P.2 < b.2 then P else b).2) (if P.2 < b.2 then P else b)).2
          with hr
        have hbbest : (if P.2 < b.2 then P else b).2 ≤ b.2 := by
          rw [hbest]; exact min_le_left _ _
        have h1 : r ≤ b.2 := le_trans hIH.1 hbbest
        rcases lt_or_le alpha v1 with hv | hv
        · rcases lt_or_le v1 beta with hv2 | hv2
          · -- child value inside the window: exact
            have hr1v : P.2 = v1 := hchild.2.2 hv hv2
            have hbv1 : min b.2 v1 = v1 := min_eq_right (le_trans hv2.le hb)
            have hbestv : (if P.2 < b.2 then P else b).2 = v1 := by
              rw [hbest, hr1v, hbv1]
            have hβ2 : min beta (if P.2 < b.2 then P else b).2 = v1 := by
              rw [hbestv]
              exact min_eq_right hv2.le
            have hMM : min (min b.2 P.2) s = min (min b.2 v1) s := by rw [hr1v]
            rw [hβ2, hMM, hbv1] at hIH
            rw [hbv1]
            refine ⟨h1, ?_, ?_, ?_⟩
            · intro h
              exact hIH.2.1 h
            · intro h
              exact absurd (lt_of_le_of_lt (le_trans h (min_le_left v1 s)) hv2)
                (lt_irrefl beta)
            · intro h1' h2'
              rcases min_choice v1 s with h3 | h3
              · rw [h3]
                rw [h3] at hIH
                have hvv := hIH.2.2.1 (le_refl v1)
                exact le_antisymm hvv.2 hvv.1
              · rcases lt_or_le (min v1 s) v1 with h4 | h4
                · exact hIH.2.2.2 h1' h4
                · have hms : min v1 s = v1 := le_antisymm (min_le_left _ _) h4
                  rw [hms]
                  rw [hms] at hIH
                  have hvv := hIH.2.2.1 (le_refl v1)
                  exact le_antisymm hvv.2 hvv.1
          · -- child value at or above the window
            obtain ⟨hβr1, hr1v⟩ := hchild.2.1 hv2
            have hbestβ : beta ≤ (if P.2 < b.2 then P else b).2 := by
              rw [hbest]; exact le_min hb hβr1
            have hβ2 : min beta (if P.2 < b.2 then P else b).2 = beta :=
              min_eq_left hbestβ
            rw [hβ2] at hIH
            have hMM : min (min b.2 P.2) s ≤ min (min b.2 v1) s :=
              min_le_min (min_le_min (le_refl b.2) hr1v) (le_refl s)
            refine ⟨h1, ?_, ?_, ?_⟩
            · intro h
              have hsα : s ≤ alpha := by
                rcases min_le_iff.mp h with h2 | h2
                · exact absurd (lt_of_lt_of_le hab (le_trans (le_min hb hv2) h2))
                    (lt_irrefl alpha)
                · exact h2
              have hM2α : min (min b.2 P.2) s ≤ alpha :=
                le_trans (min_le_right _ _) hsα
              refine ⟨le_trans ?_ (hIH.2.1 hM2α).1, (hIH.2.1 hM2α).2⟩
              have hsbr : s ≤ min b.2 P.2 :=
                le_trans hsα (le_trans hab.le (le_min hb hβr1))
              rw [min_eq_right hsbr]
              exact min_le_right _ _
            · intro h
              have hM2β : beta ≤ min (min b.2 P.2) s :=
                le_min (le_min hb hβr1) (le_trans h (min_le_right _ _))
              exact ⟨(hIH.2.2.1 hM2β).1, le_trans (hIH.2.2.1 hM2β).2 hMM⟩
            · intro h1' h2'
              have hMs : min (min b.2 v1) s = s := by
                rcases min_choice (min b.2 v1) s with h3 | h3
                · exact absurd (h3 ▸ h2') (not_lt.mpr (le_min hb hv2))
                · exact h3
              have hsβ2 : s < beta := by rw [← hMs]; exact h2'
              have hM2s : min (min b.2 P.2) s = s :=
                min_eq_right (le_trans hsβ2.le (le_min hb hβr1))
              rw [hMs] at h1' h2' ⊢
              rw [hM2s] at hIH
              exact hIH.2.2.2 h1' h2'
        · -- child value at or below the window: the loop must have cut
          obtain ⟨_, hr1α⟩ := hchild.1 hv
          refine absurd ?_ hcut
          rw [hbest]
          exact le_trans (min_le_right beta _) (le_trans (min_le_right b.2 P.2) hr1α)

end

/-- C3: on the game tree generated from any state at any fixed depth,
alpha-beta search started at the full window `(-inf, inf)` returns
exactly the backed-up value of plain minimax (the chosen moves may
differ; the values cannot). -/
theorem c3_minimax_prune_value_agree (g : CheckersGame) (depth : Nat) :
    (calc_best_move_prune g (generate_game_tree depth g (Move.mk [] false)) ⊥ ⊤).2 =
      intVal ((calc_best_move g (generate_game_tree depth g (Move.mk [] false))).2) := by
  have h := prune_spec (generate_game_tree depth g (Move.mk [] false)) g ⊥ ⊤ bot_lt_top
  exact h.2.2 (WithBot.bot_lt_coe _) (WithBot.coe_lt_coe.mpr (WithTop.coe_lt_top _))


end Checkers
